import Mathlib

/-!
# `caches::fixed_sized_cache` (include/cache.hpp)

A shallow embedding of the cache engine of `cache.hpp` and proofs of its
contract.

* The backing store `std::unordered_map<Key, Value>` is an association list
  `List (K × V)`; list order stands for the (unspecified) iteration order.
  An iterator is `Option Nat`: `some i` points at position `i`, `none` is
  `end()`.
* The replacement policy is the template parameter `Policy`; it is taken as
  a parameter: a state type `P` and the four member functions.
* Every call made on `cache_policy` is also appended to the history
  `policy_calls`, so that the protocol between engine and policy can be
  stated.
* `size_t` is 64 bits wide; the overflow test of `Put` is computed
  modulo `2 ^ 64`.
* Using `end()` where a valid iterator is required (`erase(end())`) is
  undefined behaviour; it is the error `CacheError.invalid_iterator`.
* `Put` and `Insert` take their arguments by reference (`const Key&`,
  `const Value&`). An argument is an `ArgRef`: a reference to an object of the
  caller, or a reference into an entry of the store (what `Get` returns).
  It is read where the source reads it, on the store as it is then; reading
  a reference into an entry that has been erased is undefined behaviour, the
  error `CacheError.dangling_reference`.
* An operation that can fail returns its outcome (`Except`) paired with the
  state of the cache when it returns or fails.
* The mutex `safe_op` is not modelled: every operation is one atomic step.
-/

namespace caches

/-! ## Data model -/

/-- The value `std::numeric_limits<size_t>::max()` for a 64-bit `size_t`. -/
def SIZE_MAX : Nat := 2 ^ 64 - 1

/-- Failures of an operation: `range_error` is the exception thrown by `Get`,
`invalid_iterator` is the use of `end()` (or of a dangling position) where
an iterator to an entry is required, `dangling_reference` is a read through
a reference to an entry that has been erased. -/
inductive CacheError where
  | range_error
  | invalid_iterator
  | dangling_reference
  deriving DecidableEq, Repr

/-- The calls the engine can make on its policy. -/
inductive PolicyCall (K : Type) where
  | Insert (key : K)
  | Touch (key : K)
  | Erase (key : K)
  | ReplCandidate
  deriving DecidableEq, Repr

/-- The template parameter `Policy`: a default-constructed state and the four
member functions used by the engine. `ReplCandidate` returns the candidate
together with the policy state after the call. -/
structure Policy (K P : Type) where
  init : P
  Insert : K → P → P
  Touch : K → P → P
  Erase : K → P → P
  ReplCandidate : P → K × P

/-- The data members of `fixed_sized_cache`, and the history of calls made on
`cache_policy` (oldest first). -/
structure fixed_sized_cache (K V P : Type) where
  cache_items_map : List (K × V)
  cache_policy : P
  max_cache_size : Nat
  policy_calls : List (PolicyCall K)

variable {K V P : Type}

/-! ## `std::unordered_map` primitives -/

/-- The member `find(key)` of the map: the position of the entry with that
key, `none` for `end()`. -/
def map_find [DecidableEq K] : List (K × V) → K → Option Nat
  | [], _ => none
  | e :: m, key => if e.1 = key then some 0 else (map_find m key).map Nat.succ

/-- The member `erase(it)` of the map: removes the entry the iterator points
at; `end()` is not a valid argument. -/
def map_erase (m : List (K × V)) : Option Nat → Except CacheError (List (K × V))
  | some i => if i < m.length then .ok (m.eraseIdx i) else .error .invalid_iterator
  | none => .error .invalid_iterator

/-- The member `emplace(pair)` of the map: adds the pair unless its key is
already there. -/
def map_emplace [DecidableEq K] (m : List (K × V)) (e : K × V) : List (K × V) :=
  match map_find m e.1 with
  | none => e :: m
  | some _ => m

/-- The assignment `it->second = value`. -/
def map_assign (m : List (K × V)) (i : Nat) (value : V) :
    Except CacheError (List (K × V)) :=
  match m[i]? with
  | some e => .ok (m.set i (e.1, value))
  | none => .error .invalid_iterator

/-- The value stored for a key, if any (the entry `find` points at). -/
def lookup [DecidableEq K] (m : List (K × V)) (key : K) : Option V :=
  match map_find m key with
  | some i => (m[i]?).map Prod.snd
  | none => none

/-- The keys of the store, in iteration order. -/
def keys (m : List (K × V)) : List K := m.map Prod.fst

/-- The entry `find(key)` points at, if any. -/
def find_entry [DecidableEq K] (m : List (K × V)) (key : K) : Option (K × V) :=
  match map_find m key with
  | some i => m[i]?
  | none => none

/-! ## Arguments passed by reference -/

/-- An argument of type `const T&`. It refers either to an object of the
caller, outside the store, or to a part of the store's entry for `key`: its
`second` (the reference `Get(key)` returns), its `first`, or a member of
these. -/
inductive ArgRef (K V T : Type) where
  | object (x : T)
  | entry (key : K) (part : K × V → T)

/-- Reading through a reference, on the store as it is now. A reference into
an entry that is not in the store dangles: reading it is undefined
behaviour. -/
def ArgRef.read [DecidableEq K] {T : Type} (m : List (K × V)) :
    ArgRef K V T → Except CacheError T
  | ArgRef.object x => .ok x
  | ArgRef.entry key part =>
    match find_entry m key with
    | some e => .ok (part e)
    | none => .error .dangling_reference

/-- The reference does not point into the store's entry for `c`. -/
def ArgRef.outside {T : Type} (c : K) : ArgRef K V T → Prop
  | ArgRef.object _ => True
  | ArgRef.entry key _ => key ≠ c

/-! ## Calls on `cache_policy` -/

/-- The call `cache_policy.Insert(key)`. -/
def policy_Insert (pol : Policy K P) (s : fixed_sized_cache K V P) (key : K) :
    fixed_sized_cache K V P :=
  { s with cache_policy := pol.Insert key s.cache_policy
           policy_calls := s.policy_calls ++ [PolicyCall.Insert key] }

/-- The call `cache_policy.Touch(key)`. -/
def policy_Touch (pol : Policy K P) (s : fixed_sized_cache K V P) (key : K) :
    fixed_sized_cache K V P :=
  { s with cache_policy := pol.Touch key s.cache_policy
           policy_calls := s.policy_calls ++ [PolicyCall.Touch key] }

/-- The call `cache_policy.Erase(key)`. -/
def policy_Erase (pol : Policy K P) (s : fixed_sized_cache K V P) (key : K) :
    fixed_sized_cache K V P :=
  { s with cache_policy := pol.Erase key s.cache_policy
           policy_calls := s.policy_calls ++ [PolicyCall.Erase key] }

/-- The call `cache_policy.ReplCandidate()`: the key it names and the state
after the call. -/
def policy_ReplCandidate (pol : Policy K P) (s : fixed_sized_cache K V P) :
    K × fixed_sized_cache K V P :=
  ((pol.ReplCandidate s.cache_policy).1,
   { s with cache_policy := (pol.ReplCandidate s.cache_policy).2
            policy_calls := s.policy_calls ++ [PolicyCall.ReplCandidate] })

/-! ## The engine -/

/-- The constructor (cache.hpp, lines 25-31): a bound of 0 is replaced by the
largest `size_t`. -/
def ctor (pol : Policy K P) (max_size : Nat) : fixed_sized_cache K V P :=
  { cache_items_map := []
    cache_policy := pol.init
    max_cache_size := if max_size = 0 then SIZE_MAX else max_size
    policy_calls := [] }

/-- The member `FindElem` (lines 144-147). -/
def FindElem [DecidableEq K] (s : fixed_sized_cache K V P) (key : K) : Option Nat :=
  map_find s.cache_items_map key

/-- The member `FindForChange` (lines 149-152). -/
def FindForChange [DecidableEq K] (s : fixed_sized_cache K V P) (key : K) : Option Nat :=
  map_find s.cache_items_map key

/-- The member `Insert` (lines 130-134). `key` is read for the call on the
policy, then `key` and `value` are read by `std::make_pair`; the store is
the same at all these reads. -/
def Insert [DecidableEq K] (pol : Policy K P) (s : fixed_sized_cache K V P)
    (key : ArgRef K V K) (value : ArgRef K V V) :
    Except CacheError Unit × fixed_sized_cache K V P :=
  match key.read s.cache_items_map with
  | .error e => (.error e, s)
  | .ok k =>
    let s1 := policy_Insert pol s k
    match value.read s1.cache_items_map with
    | .error e => (.error e, s1)
    | .ok v => (.ok (), { s1 with cache_items_map := map_emplace s1.cache_items_map (k, v) })

/-- The member `Erase` (lines 136-142): the policy is told first, then the
entry is looked up and erased; erasing `end()` fails. The key is read only
before the entry is erased (in `Put` it is the local copy
`disp_candidate_key`), so it is taken as the key read. -/
def Erase [DecidableEq K] (pol : Policy K P) (s : fixed_sized_cache K V P)
    (key : K) : Except CacheError Unit × fixed_sized_cache K V P :=
  let s1 := policy_Erase pol s key
  let elem_it := FindElem s1 key
  match map_erase s1.cache_items_map elem_it with
  | .ok m => (.ok (), { s1 with cache_items_map := m })
  | .error e => (.error e, s1)

/-- The test `cache_items_map.size() + 1 > max_cache_size` of `Put` (line 46),
in `size_t` arithmetic. -/
def overflows (s : fixed_sized_cache K V P) : Bool :=
  decide ((s.cache_items_map.length + 1) % 2 ^ 64 > s.max_cache_size)

/-- The member `Put` (lines 38-60): the outcome and the state the call leaves
behind. `key` is read by `FindForChange`; in the eviction branch `key` and
`value` are read again by `Insert`, after `Erase` has removed the candidate's
entry; in the update branch `key` is read by `Touch` and `value` by the
assignment. -/
def Put [DecidableEq K] (pol : Policy K P) (s : fixed_sized_cache K V P)
    (key : ArgRef K V K) (value : ArgRef K V V) :
    Except CacheError Unit × fixed_sized_cache K V P :=
  match key.read s.cache_items_map with
  | .error e => (.error e, s)
  | .ok k =>
    match FindForChange s k with
    | none =>
      if overflows s then
        let r := policy_ReplCandidate pol s
        match Erase pol r.2 r.1 with
        | (.ok _, s2) => Insert pol s2 key value
        | (.error e, s2) => (.error e, s2)
      else
        Insert pol s key value
    | some i =>
      let s1 := policy_Touch pol s k
      match value.read s1.cache_items_map with
      | .error e => (.error e, s1)
      | .ok v =>
        match map_assign s1.cache_items_map i v with
        | .ok m => (.ok (), { s1 with cache_items_map := m })
        | .error e => (.error e, s1)

/-- The member `Get` (lines 62-74): the value or the failure, and the state
the call leaves behind. Nothing is erased, so `key` is taken as the key
read. -/
def Get [DecidableEq K] (pol : Policy K P) (s : fixed_sized_cache K V P)
    (key : K) : Except CacheError V × fixed_sized_cache K V P :=
  match FindElem s key with
  | none => (.error .range_error, s)
  | some i =>
    let s1 := policy_Touch pol s key
    match s1.cache_items_map[i]? with
    | some e => (.ok e.2, s1)
    | none => (.error .invalid_iterator, s1)

/-- The member `Cached` (lines 76-80). -/
def Cached [DecidableEq K] (s : fixed_sized_cache K V P) (key : K) : Bool :=
  (FindElem s key).isSome

/-- The member `Size` (lines 82-86). -/
def Size (s : fixed_sized_cache K V P) : Nat :=
  s.cache_items_map.length

/-- The member `Remove` (lines 95-106): the value returned or the failure, and
the state the call leaves behind. `key` is not read after the entry is
erased, so it is taken as the key read. -/
def Remove [DecidableEq K] (pol : Policy K P) (s : fixed_sized_cache K V P)
    (key : K) : Except CacheError Bool × fixed_sized_cache K V P :=
  match map_find s.cache_items_map key with
  | none => (.ok false, s)
  | some _ =>
    match Erase pol s key with
    | (.ok _, s1) => (.ok true, s1)
    | (.error e, s1) => (.error e, s1)

/-- The loop of `Clear` (lines 112-115): one `Erase` call on the policy per
entry, in iteration order; the store is not touched. -/
def Clear_notify (pol : Policy K P) (s : fixed_sized_cache K V P) :
    fixed_sized_cache K V P :=
  s.cache_items_map.foldl (fun st e => policy_Erase pol st e.1) s

/-- The member `Clear` (lines 109-117). -/
def Clear (pol : Policy K P) (s : fixed_sized_cache K V P) : fixed_sized_cache K V P :=
  let s1 := Clear_notify pol s
  { s1 with cache_items_map := [] }

/-! ## Runs and preconditions -/

/-- The policy precondition at a `Put`: if this `Put` asks the policy for an
eviction candidate, the key named is a key of the store. -/
def candidate_stored [DecidableEq K] (pol : Policy K P) (s : fixed_sized_cache K V P)
    (key : K) : Prop :=
  FindForChange s key = none → overflows s = true →
    (pol.ReplCandidate s.cache_policy).1 ∈ keys s.cache_items_map

instance candidate_stored_decidable [DecidableEq K] (pol : Policy K P)
    (s : fixed_sized_cache K V P) (key : K) : Decidable (candidate_stored pol s key) :=
  inferInstanceAs (Decidable (FindForChange s key = none → overflows s = true →
    (pol.ReplCandidate s.cache_policy).1 ∈ keys s.cache_items_map))

/-- The arguments of a `Put` are usable: on entry they read as `key` and
`value`, and if this `Put` evicts an entry, neither of them is a reference
into the entry evicted. Arguments that are objects of the caller are always
usable. -/
def args_valid [DecidableEq K] (pol : Policy K P) (s : fixed_sized_cache K V P)
    (kr : ArgRef K V K) (vr : ArgRef K V V) (key : K) (value : V) : Prop :=
  kr.read s.cache_items_map = .ok key ∧ vr.read s.cache_items_map = .ok value ∧
    (FindForChange s key = none → overflows s = true →
      kr.outside (pol.ReplCandidate s.cache_policy).1 ∧
        vr.outside (pol.ReplCandidate s.cache_policy).1)

/-- A sequence of `Put` calls, first to last, whose arguments are objects of
the caller (as in `Put(A, 1); Put(B, 2)`); stops at the first failure. -/
def runPuts [DecidableEq K] (pol : Policy K P) :
    fixed_sized_cache K V P → List (K × V) →
      Except CacheError Unit × fixed_sized_cache K V P
  | s, [] => (.ok (), s)
  | s, op :: ops =>
    match Put pol s (ArgRef.object op.1) (ArgRef.object op.2) with
    | (.ok _, s1) => runPuts pol s1 ops
    | (.error e, s1) => (.error e, s1)

/-- The policy precondition along a sequence of `Put` calls: it holds at
every `Put` of the run. -/
def puts_admissible [DecidableEq K] (pol : Policy K P) :
    fixed_sized_cache K V P → List (K × V) → Prop
  | _, [] => True
  | s, op :: ops =>
    candidate_stored pol s op.1 ∧
      match Put pol s (ArgRef.object op.1) (ArgRef.object op.2) with
      | (.ok _, s1) => puts_admissible pol s1 ops
      | (.error _, _) => True

instance puts_admissible_decidable [DecidableEq K] (pol : Policy K P) :
    ∀ (s : fixed_sized_cache K V P) (ops : List (K × V)),
      Decidable (puts_admissible pol s ops)
  | _, [] => isTrue trivial
  | s, op :: ops =>
    match h : Put pol s (ArgRef.object op.1) (ArgRef.object op.2) with
    | (.ok _, s1) =>
      have := puts_admissible_decidable pol s1 ops
      decidable_of_iff (candidate_stored pol s op.1 ∧ puts_admissible pol s1 ops)
        (by simp only [puts_admissible, h])
    | (.error _, _) =>
      decidable_of_iff (candidate_stored pol s op.1) (by simp only [puts_admissible, h, and_true])

/-- The store is a well-formed map: no key occurs twice. -/
def unique_keys (s : fixed_sized_cache K V P) : Prop :=
  (keys s.cache_items_map).Nodup

instance unique_keys_decidable [DecidableEq K] (s : fixed_sized_cache K V P) :
    Decidable (unique_keys s) :=
  inferInstanceAs (Decidable (keys s.cache_items_map).Nodup)

/-- Modelled from the spec: a first-in-first-out policy (the concrete policies
of the repository are not among the sources). It keeps the tracked keys in
insertion order; `ReplCandidate` names the oldest one (the default key when
nothing is tracked). -/
def fifo [DecidableEq K] [Inhabited K] : Policy K (List K) :=
  { init := []
    Insert := fun key q => q ++ [key]
    Touch := fun _ q => q
    Erase := fun key q => q.filter (fun x => decide (x ≠ key))
    ReplCandidate := fun q => (q.headD default, q) }

/-- A state for the examples: capacity 2, the store `2 ↦ 20, 1 ↦ 10`, the
first-in-first-out policy tracking 1 then 2 (the state after `Put(1, 10)`,
`Put(2, 20)` on a new cache, with an empty history). -/
def full2 : fixed_sized_cache Nat Nat (List Nat) :=
  { cache_items_map := [(2, 20), (1, 10)]
    cache_policy := [1, 2]
    max_cache_size := 2
    policy_calls := [] }

/-- A state for the examples: the store `2 ↦ 20, 1 ↦ 10` with bound 3. -/
def below3 : fixed_sized_cache Nat Nat (List Nat) :=
  { cache_items_map := [(2, 20), (1, 10)]
    cache_policy := [1, 2]
    max_cache_size := 3
    policy_calls := [] }

/-! ## Calls, reachable states and the policy contract -/

/-- The operations of the cache: the public members and `Clear` (protected,
run by the destructor). The arguments of a call are objects of the
caller. -/
inductive Call (K V : Type) where
  | Put (key : K) (value : V)
  | Get (key : K)
  | Cached (key : K)
  | Size
  | Remove (key : K)
  | Clear

/-- The state of the cache after a call. `Cached` and `Size` are `const`
members whose bodies only read `cache_items_map`: the state after them is the
state before them. -/
def after [DecidableEq K] (pol : Policy K P) :
    Call K V → fixed_sized_cache K V P → fixed_sized_cache K V P
  | Call.Put key value, s => (Put pol s (ArgRef.object key) (ArgRef.object value)).2
  | Call.Get key, s => (Get pol s key).2
  | Call.Cached _, s => s
  | Call.Size, s => s
  | Call.Remove key, s => (Remove pol s key).2
  | Call.Clear, s => Clear pol s

/-- The state after a sequence of calls, first to last. -/
def run [DecidableEq K] (pol : Policy K P) (s : fixed_sized_cache K V P)
    (calls : List (Call K V)) : fixed_sized_cache K V P :=
  calls.foldl (fun st c => after pol c st) s

theorem keys_set {m : List (K × V)} {i : Nat} {e : K × V} (h : m[i]? = some e) (v : V) :
    keys (m.set i (e.1, v)) = keys m := by
  induction m generalizing i with
  | nil => simp at h
  | cons a m ih =>
    cases i with
    | zero =>
      simp at h; subst h; simp [keys]
    | succ j =>
      simp at h
      have := ih h
      simp only [keys] at this ⊢
      simp [this]

section map_lemmas

variable [DecidableEq K]

theorem lookup_nil (key : K) : lookup ([] : List (K × V)) key = none := rfl

theorem lookup_cons (e : K × V) (m : List (K × V)) (key : K) :
    lookup (e :: m) key = if e.1 = key then some e.2 else lookup m key := by
  unfold lookup
  simp only [map_find]
  by_cases h : e.1 = key
  · simp [h]
  · simp only [h, if_false]
    cases map_find m key <;> simp

theorem map_find_lt {m : List (K × V)} {key : K} {i : Nat}
    (h : map_find m key = some i) : i < m.length := by
  induction m generalizing i with
  | nil => simp [map_find] at h
  | cons e m ih =>
    simp only [map_find] at h
    by_cases hk : e.1 = key
    · simp [hk] at h; subst h; simp
    · simp only [hk, if_false] at h
      cases hf : map_find m key with
      | none => simp [hf] at h
      | some j =>
        simp [hf] at h; subst h
        have := ih hf
        simp; omega

theorem map_find_key {m : List (K × V)} {key : K} {i : Nat}
    (h : map_find m key = some i) : ∃ e, m[i]? = some e ∧ e.1 = key := by
  induction m generalizing i with
  | nil => simp [map_find] at h
  | cons e m ih =>
    simp only [map_find] at h
    by_cases hk : e.1 = key
    · simp [hk] at h; subst h; exact ⟨e, by simp, hk⟩
    · simp only [hk, if_false] at h
      cases hf : map_find m key with
      | none => simp [hf] at h
      | some j =>
        simp [hf] at h; subst h
        obtain ⟨e2, h1, h2⟩ := ih hf
        exact ⟨e2, by simpa using h1, h2⟩

theorem map_find_eq_none {m : List (K × V)} {key : K} :
    map_find m key = none ↔ key ∉ keys m := by
  induction m with
  | nil => simp [map_find, keys]
  | cons e m ih =>
    simp only [map_find, keys, List.map_cons, List.mem_cons, not_or]
    by_cases hk : e.1 = key
    · simp [hk]
    · simp only [hk, if_false, Option.map_eq_none']
      rw [ih]
      simp only [keys]
      constructor
      · intro h; exact ⟨fun h2 => hk h2.symm, h⟩
      · intro h; exact h.2

theorem map_find_isSome {m : List (K × V)} {key : K} :
    (map_find m key).isSome = true ↔ key ∈ keys m := by
  rw [← not_iff_not, ← map_find_eq_none]
  cases map_find m key <;> simp

theorem lookup_eq_none {m : List (K × V)} {key : K} :
    lookup m key = none ↔ key ∉ keys m := by
  induction m with
  | nil => simp [lookup_nil, keys]
  | cons e m ih =>
    rw [lookup_cons]
    by_cases hk : e.1 = key
    · simp [hk, keys]
    · simp only [hk, if_false, ih, keys, List.map_cons, List.mem_cons, not_or]
      constructor
      · intro h; exact ⟨fun h2 => hk h2.symm, h⟩
      · intro h; exact h.2

theorem lookup_isSome_of_find {m : List (K × V)} {key : K} {i : Nat}
    (h : map_find m key = some i) : lookup m key = (m[i]?).map Prod.snd := by
  simp [lookup, h]

theorem map_find_congr {m m2 : List (K × V)} (h : keys m = keys m2) (key : K) :
    map_find m key = map_find m2 key := by
  induction m generalizing m2 with
  | nil =>
    cases m2 with
    | nil => rfl
    | cons b m2 => simp [keys] at h
  | cons a m ih =>
    cases m2 with
    | nil => simp [keys] at h
    | cons b m2 =>
      simp only [keys, List.map_cons, List.cons.injEq] at h
      simp only [map_find, h.1, ih h.2]

theorem lookup_set_same {m : List (K × V)} {key : K} {i : Nat}
    (h : map_find m key = some i) (v : V) :
    lookup (m.set i (key, v)) key = some v := by
  induction m generalizing i with
  | nil => simp [map_find] at h
  | cons a m ih =>
    simp only [map_find] at h
    by_cases hk : a.1 = key
    · simp [hk] at h; subst h
      simp [lookup_cons]
    · simp only [hk, if_false] at h
      cases hf : map_find m key with
      | none => simp [hf] at h
      | some j =>
        simp [hf] at h; subst h
        simp [lookup_cons, hk, ih hf]

theorem lookup_set_other {m : List (K × V)} {key : K} {i : Nat}
    (h : map_find m key = some i) (v : V) {key2 : K} (hne : key2 ≠ key) :
    lookup (m.set i (key, v)) key2 = lookup m key2 := by
  induction m generalizing i with
  | nil => simp [map_find] at h
  | cons a m ih =>
    simp only [map_find] at h
    by_cases hk : a.1 = key
    · simp [hk] at h; subst h
      have : ¬ a.1 = key2 := fun h2 => hne (h2.symm.trans hk)
      simp [lookup_cons, this, hne.symm]
    · simp only [hk, if_false] at h
      cases hf : map_find m key with
      | none => simp [hf] at h
      | some j =>
        simp [hf] at h; subst h
        simp [lookup_cons, ih hf]

theorem lookup_eraseIdx_other {m : List (K × V)} {key : K} {i : Nat}
    (h : map_find m key = some i) {key2 : K} (hne : key2 ≠ key) :
    lookup (m.eraseIdx i) key2 = lookup m key2 := by
  induction m generalizing i with
  | nil => simp [map_find] at h
  | cons a m ih =>
    simp only [map_find] at h
    by_cases hk : a.1 = key
    · simp [hk] at h; subst h
      have : ¬ a.1 = key2 := fun h2 => hne (h2.symm.trans hk)
      simp [lookup_cons, this]
    · simp only [hk, if_false] at h
      cases hf : map_find m key with
      | none => simp [hf] at h
      | some j =>
        simp [hf] at h; subst h
        simp [lookup_cons, ih hf]

theorem keys_eraseIdx_find {m : List (K × V)} {key : K} {i : Nat}
    (h : map_find m key = some i) : keys (m.eraseIdx i) = (keys m).erase key := by
  induction m generalizing i with
  | nil => simp [map_find] at h
  | cons a m ih =>
    simp only [map_find] at h
    by_cases hk : a.1 = key
    · simp [hk] at h; subst h
      simp [keys, hk]
    · simp only [hk, if_false] at h
      cases hf : map_find m key with
      | none => simp [hf] at h
      | some j =>
        simp [hf] at h; subst h
        have := ih hf
        simp only [keys] at this ⊢
        simp [this, List.erase_cons, hk]

theorem not_mem_keys_eraseIdx_find {m : List (K × V)} {key : K} {i : Nat}
    (hnd : (keys m).Nodup) (h : map_find m key = some i) :
    key ∉ keys (m.eraseIdx i) := by
  rw [keys_eraseIdx_find h]
  exact List.Nodup.not_mem_erase hnd

theorem mem_keys_eraseIdx_find {m : List (K × V)} {key : K} {i : Nat}
    (h : map_find m key = some i) {key2 : K} (hne : key2 ≠ key) :
    key2 ∈ keys (m.eraseIdx i) ↔ key2 ∈ keys m := by
  rw [keys_eraseIdx_find h]
  exact List.mem_erase_of_ne hne

theorem map_emplace_new {m : List (K × V)} {key : K} (h : map_find m key = none) (v : V) :
    map_emplace m (key, v) = (key, v) :: m := by
  simp [map_emplace, h]

end map_lemmas

theorem Clear_notify_spec (pol : Policy K P) (s : fixed_sized_cache K V P) :
    Clear_notify pol s =
      { cache_items_map := s.cache_items_map
        cache_policy := (keys s.cache_items_map).foldl (fun p k => pol.Erase k p) s.cache_policy
        max_cache_size := s.max_cache_size
        policy_calls := s.policy_calls ++ (keys s.cache_items_map).map PolicyCall.Erase } := by
  unfold Clear_notify
  suffices H : ∀ (l : List (K × V)) (st : fixed_sized_cache K V P),
      l.foldl (fun st e => policy_Erase pol st e.1) st =
        { cache_items_map := st.cache_items_map
          cache_policy := (keys l).foldl (fun p k => pol.Erase k p) st.cache_policy
          max_cache_size := st.max_cache_size
          policy_calls := st.policy_calls ++ (keys l).map PolicyCall.Erase } from H _ s
  intro l
  induction l with
  | nil => intro st; simp [keys]
  | cons e l ih =>
    intro st
    simp only [List.foldl_cons, ih, keys, List.map_cons]
    simp [policy_Erase]

section step_lemmas

variable [DecidableEq K]

theorem find_entry_cons (e : K × V) (m : List (K × V)) (key : K) :
    find_entry (e :: m) key = if e.1 = key then some e else find_entry m key := by
  unfold find_entry
  simp only [map_find]
  by_cases h : e.1 = key
  · simp [h]
  · simp only [h, if_false]
    cases map_find m key <;> simp

theorem find_entry_eq_none {m : List (K × V)} {key : K} :
    find_entry m key = none ↔ key ∉ keys m := by
  induction m with
  | nil => simp [find_entry, map_find, keys]
  | cons e m ih =>
    rw [find_entry_cons]
    by_cases hk : e.1 = key
    · simp [hk, keys]
    · simp only [hk, if_false, ih, keys, List.map_cons, List.mem_cons, not_or]
      constructor
      · intro h; exact ⟨fun h2 => hk h2.symm, h⟩
      · intro h; exact h.2

theorem find_entry_eraseIdx_other {m : List (K × V)} {key : K} {i : Nat}
    (h : map_find m key = some i) {key2 : K} (hne : key2 ≠ key) :
    find_entry (m.eraseIdx i) key2 = find_entry m key2 := by
  induction m generalizing i with
  | nil => simp [map_find] at h
  | cons a m ih =>
    simp only [map_find] at h
    by_cases hk : a.1 = key
    · simp [hk] at h; subst h
      have : ¬ a.1 = key2 := fun h2 => hne (h2.symm.trans hk)
      simp [find_entry_cons, this]
    · simp only [hk, if_false] at h
      cases hf : map_find m key with
      | none => simp [hf] at h
      | some j =>
        simp [hf] at h; subst h
        simp [find_entry_cons, ih hf]

theorem ArgRef.read_object {T : Type} (m : List (K × V)) (x : T) :
    (ArgRef.object x : ArgRef K V T).read m = .ok x := rfl

theorem ArgRef.read_error {T : Type} {m : List (K × V)} {r : ArgRef K V T}
    {e : CacheError} (h : r.read m = .error e) : e = .dangling_reference := by
  cases r with
  | object x => simp [ArgRef.read] at h
  | entry key part =>
    simp only [ArgRef.read] at h
    cases hf : find_entry m key with
    | none =>
      rw [hf] at h
      injection h with h
      exact h.symm
    | some en => simp [hf] at h

theorem ArgRef.read_eraseIdx {T : Type} {m : List (K × V)} {c : K} {j : Nat}
    (hc : map_find m c = some j) {r : ArgRef K V T} (hout : r.outside c) :
    r.read (m.eraseIdx j) = r.read m := by
  cases r with
  | object x => rfl
  | entry key part =>
    simp only [ArgRef.read, find_entry_eraseIdx_other hc hout]

theorem ArgRef.read_erased {T : Type} {m : List (K × V)} {c : K} {j : Nat}
    (hkeys : (keys m).Nodup) (hc : map_find m c = some j) (part : K × V → T) :
    (ArgRef.entry c part : ArgRef K V T).read (m.eraseIdx j) =
      .error .dangling_reference := by
  have := find_entry_eq_none.mpr (not_mem_keys_eraseIdx_find hkeys hc)
  simp [ArgRef.read, this]

theorem args_valid_object (pol : Policy K P) (s : fixed_sized_cache K V P)
    (key : K) (value : V) :
    args_valid pol s (ArgRef.object key) (ArgRef.object value) key value :=
  ⟨rfl, rfl, fun _ _ => ⟨trivial, trivial⟩⟩

theorem Insert_ok (pol : Policy K P) {s : fixed_sized_cache K V P}
    {kr : ArgRef K V K} {vr : ArgRef K V V} {key : K} {value : V}
    (hk : kr.read s.cache_items_map = .ok key)
    (hv : vr.read s.cache_items_map = .ok value) :
    Insert pol s kr vr =
      (.ok (), { cache_items_map := map_emplace s.cache_items_map (key, value)
                 cache_policy := pol.Insert key s.cache_policy
                 max_cache_size := s.max_cache_size
                 policy_calls := s.policy_calls ++ [PolicyCall.Insert key] }) := by
  simp [Insert, hk, policy_Insert, hv]

theorem Insert_key_dangling (pol : Policy K P) {s : fixed_sized_cache K V P}
    {kr : ArgRef K V K} (vr : ArgRef K V V) {e : CacheError}
    (hk : kr.read s.cache_items_map = .error e) :
    Insert pol s kr vr = (.error .dangling_reference, s) := by
  have := ArgRef.read_error hk
  subst this
  simp [Insert, hk]

theorem Insert_value_dangling (pol : Policy K P) {s : fixed_sized_cache K V P}
    {kr : ArgRef K V K} {vr : ArgRef K V V} {key : K} {e : CacheError}
    (hk : kr.read s.cache_items_map = .ok key)
    (hv : vr.read s.cache_items_map = .error e) :
    Insert pol s kr vr = (.error .dangling_reference, policy_Insert pol s key) := by
  have := ArgRef.read_error hv
  subst this
  simp [Insert, hk, policy_Insert, hv]

theorem Put_key_dangling (pol : Policy K P) {s : fixed_sized_cache K V P}
    {kr : ArgRef K V K} (vr : ArgRef K V V) {e : CacheError}
    (hk : kr.read s.cache_items_map = .error e) :
    Put pol s kr vr = (.error .dangling_reference, s) := by
  have := ArgRef.read_error hk
  subst this
  simp [Put, hk]

theorem Put_update (pol : Policy K P) {s : fixed_sized_cache K V P}
    {kr : ArgRef K V K} {vr : ArgRef K V V} {key : K} {value : V} {i : Nat}
    (hk : kr.read s.cache_items_map = .ok key)
    (hv : vr.read s.cache_items_map = .ok value)
    (h : map_find s.cache_items_map key = some i) :
    Put pol s kr vr =
      (.ok (), { cache_items_map := s.cache_items_map.set i (key, value)
                 cache_policy := pol.Touch key s.cache_policy
                 max_cache_size := s.max_cache_size
                 policy_calls := s.policy_calls ++ [PolicyCall.Touch key] }) := by
  obtain ⟨e, he, hke⟩ := map_find_key h
  simp [Put, hk, FindForChange, h, map_assign, policy_Touch, hv, he, hke]

theorem Put_update_value_dangling (pol : Policy K P) {s : fixed_sized_cache K V P}
    {kr : ArgRef K V K} {vr : ArgRef K V V} {key : K} {i : Nat} {e : CacheError}
    (hk : kr.read s.cache_items_map = .ok key)
    (hv : vr.read s.cache_items_map = .error e)
    (h : map_find s.cache_items_map key = some i) :
    Put pol s kr vr = (.error .dangling_reference, policy_Touch pol s key) := by
  have := ArgRef.read_error hv
  subst this
  simp [Put, hk, FindForChange, h, policy_Touch, hv]

theorem Put_no_evict (pol : Policy K P) {s : fixed_sized_cache K V P}
    {kr : ArgRef K V K} (vr : ArgRef K V V) {key : K}
    (hk : kr.read s.cache_items_map = .ok key)
    (h : map_find s.cache_items_map key = none) (ho : overflows s = false) :
    Put pol s kr vr = Insert pol s kr vr := by
  simp [Put, hk, FindForChange, h, ho]

theorem Put_insert (pol : Policy K P) {s : fixed_sized_cache K V P}
    {kr : ArgRef K V K} {vr : ArgRef K V V} {key : K} {value : V}
    (hk : kr.read s.cache_items_map = .ok key)
    (hv : vr.read s.cache_items_map = .ok value)
    (h : map_find s.cache_items_map key = none) (ho : overflows s = false) :
    Put pol s kr vr =
      (.ok (), { cache_items_map := (key, value) :: s.cache_items_map
                 cache_policy := pol.Insert key s.cache_policy
                 max_cache_size := s.max_cache_size
                 policy_calls := s.policy_calls ++ [PolicyCall.Insert key] }) := by
  rw [Put_no_evict pol vr hk h ho, Insert_ok pol hk hv]
  simp [map_emplace, h]

theorem Erase_stored (pol : Policy K P) {s : fixed_sized_cache K V P} {key : K} {i : Nat}
    (h : map_find s.cache_items_map key = some i) :
    Erase pol s key =
      (.ok (), { cache_items_map := s.cache_items_map.eraseIdx i
                 cache_policy := pol.Erase key s.cache_policy
                 max_cache_size := s.max_cache_size
                 policy_calls := s.policy_calls ++ [PolicyCall.Erase key] }) := by
  have hi := map_find_lt h
  simp [Erase, FindElem, policy_Erase, h, map_erase, hi]

theorem Erase_absent (pol : Policy K P) {s : fixed_sized_cache K V P} {key : K}
    (h : map_find s.cache_items_map key = none) :
    Erase pol s key = (.error .invalid_iterator, policy_Erase pol s key) := by
  simp [Erase, FindElem, policy_Erase, h, map_erase]

theorem Put_evicting (pol : Policy K P) {s : fixed_sized_cache K V P}
    {kr : ArgRef K V K} (vr : ArgRef K V V) {key : K} {j : Nat}
    (hk : kr.read s.cache_items_map = .ok key)
    (h : map_find s.cache_items_map key = none) (ho : overflows s = true)
    (hc : map_find s.cache_items_map (pol.ReplCandidate s.cache_policy).1 = some j) :
    Put pol s kr vr =
      Insert pol
        { cache_items_map := s.cache_items_map.eraseIdx j
          cache_policy := pol.Erase (pol.ReplCandidate s.cache_policy).1
            (pol.ReplCandidate s.cache_policy).2
          max_cache_size := s.max_cache_size
          policy_calls := s.policy_calls ++
            [PolicyCall.ReplCandidate,
             PolicyCall.Erase (pol.ReplCandidate s.cache_policy).1] } kr vr := by
  have hc2 : map_find (policy_ReplCandidate pol s).2.cache_items_map
      (pol.ReplCandidate s.cache_policy).1 = some j := by
    simpa [policy_ReplCandidate] using hc
  have he := Erase_stored pol hc2
  simp only [Put, hk, FindForChange, h, ho, if_true]
  simp only [policy_ReplCandidate] at he ⊢
  rw [he]
  simp

theorem Put_evict (pol : Policy K P) {s : fixed_sized_cache K V P}
    {kr : ArgRef K V K} {vr : ArgRef K V V} {key : K} {value : V} {j : Nat}
    (hk : kr.read s.cache_items_map = .ok key)
    (h : map_find s.cache_items_map key = none) (ho : overflows s = true)
    (hc : map_find s.cache_items_map (pol.ReplCandidate s.cache_policy).1 = some j)
    (hk2 : kr.read (s.cache_items_map.eraseIdx j) = .ok key)
    (hv2 : vr.read (s.cache_items_map.eraseIdx j) = .ok value) :
    Put pol s kr vr =
      (.ok (), { cache_items_map := (key, value) :: s.cache_items_map.eraseIdx j
                 cache_policy := pol.Insert key
                   (pol.Erase (pol.ReplCandidate s.cache_policy).1
                     (pol.ReplCandidate s.cache_policy).2)
                 max_cache_size := s.max_cache_size
                 policy_calls := s.policy_calls ++
                   [PolicyCall.ReplCandidate,
                    PolicyCall.Erase (pol.ReplCandidate s.cache_policy).1,
                    PolicyCall.Insert key] }) := by
  have hnew : map_find (s.cache_items_map.eraseIdx j) key = none := by
    rw [map_find_eq_none] at h ⊢
    intro hmem
    apply h
    simp only [keys, List.mem_map] at hmem ⊢
    obtain ⟨e, he, hke⟩ := hmem
    exact ⟨e, List.mem_of_mem_eraseIdx he, hke⟩
  rw [Put_evicting pol vr hk h ho hc, Insert_ok pol hk2 hv2]
  simp [map_emplace, hnew]

theorem Put_cases (pol : Policy K P) (s : fixed_sized_cache K V P)
    (kr : ArgRef K V K) (vr : ArgRef K V V) (key : K) (value : V)
    (ha : args_valid pol s kr vr key value)
    (h : candidate_stored pol s key) :
    (∃ i, map_find s.cache_items_map key = some i ∧
      Put pol s kr vr =
        (.ok (), { cache_items_map := s.cache_items_map.set i (key, value)
                   cache_policy := pol.Touch key s.cache_policy
                   max_cache_size := s.max_cache_size
                   policy_calls := s.policy_calls ++ [PolicyCall.Touch key] })) ∨
    (map_find s.cache_items_map key = none ∧ overflows s = false ∧
      Put pol s kr vr =
        (.ok (), { cache_items_map := (key, value) :: s.cache_items_map
                   cache_policy := pol.Insert key s.cache_policy
                   max_cache_size := s.max_cache_size
                   policy_calls := s.policy_calls ++ [PolicyCall.Insert key] })) ∨
    (∃ j, map_find s.cache_items_map key = none ∧ overflows s = true ∧
      map_find s.cache_items_map (pol.ReplCandidate s.cache_policy).1 = some j ∧
      Put pol s kr vr =
        (.ok (), { cache_items_map := (key, value) :: s.cache_items_map.eraseIdx j
                   cache_policy := pol.Insert key
                     (pol.Erase (pol.ReplCandidate s.cache_policy).1
                       (pol.ReplCandidate s.cache_policy).2)
                   max_cache_size := s.max_cache_size
                   policy_calls := s.policy_calls ++
                     [PolicyCall.ReplCandidate,
                      PolicyCall.Erase (pol.ReplCandidate s.cache_policy).1,
                      PolicyCall.Insert key] })) := by
  obtain ⟨hk, hv, hout⟩ := ha
  cases hf : map_find s.cache_items_map key with
  | some i => exact Or.inl ⟨i, rfl, Put_update pol hk hv hf⟩
  | none =>
    cases ho : overflows s with
    | false => exact Or.inr (Or.inl ⟨rfl, rfl, Put_insert pol hk hv hf ho⟩)
    | true =>
      have hmem := h hf ho
      obtain ⟨hko, hvo⟩ := hout hf ho
      cases hc : map_find s.cache_items_map (pol.ReplCandidate s.cache_policy).1 with
      | none => exact absurd hmem (map_find_eq_none.mp hc)
      | some j =>
        have hk2 := (ArgRef.read_eraseIdx hc hko).trans hk
        have hv2 := (ArgRef.read_eraseIdx hc hvo).trans hv
        exact Or.inr (Or.inr ⟨j, rfl, rfl, rfl, Put_evict pol hk hf ho hc hk2 hv2⟩)

theorem Put_size (pol : Policy K P) (s : fixed_sized_cache K V P)
    (kr : ArgRef K V K) (vr : ArgRef K V V) (key : K) (value : V)
    (ha : args_valid pol s kr vr key value)
    (h : candidate_stored pol s key) :
    ∃ s1, Put pol s kr vr = (.ok (), s1) ∧ s1.max_cache_size = s.max_cache_size ∧
      Size s1 ≤ Size s + 1 ∧
      (Size s ≤ s.max_cache_size → Size s < SIZE_MAX → Size s1 ≤ s.max_cache_size) := by
  rcases Put_cases pol s kr vr key value ha h with
    ⟨i, _, hp⟩ | ⟨_, ho, hp⟩ | ⟨j, _, _, hc, hp⟩
  · refine ⟨_, hp, rfl, ?_, ?_⟩
    · simp [Size]
    · intro hle _
      simpa [Size] using hle
  · refine ⟨_, hp, rfl, ?_, ?_⟩
    · simp [Size]
    · intro _ hlt
      simp only [overflows, decide_eq_false_iff_not, not_lt] at ho
      simp only [Size, SIZE_MAX, List.length_cons] at hlt ⊢
      rw [Nat.mod_eq_of_lt (by omega)] at ho
      exact ho
  · have hj := map_find_lt hc
    refine ⟨_, hp, rfl, ?_, ?_⟩
    · simp only [Size, List.length_cons, List.length_eraseIdx_of_lt hj]; omega
    · intro hle _
      simp only [Size, List.length_cons, List.length_eraseIdx_of_lt hj] at hle ⊢; omega

theorem Get_state (pol : Policy K P) (s : fixed_sized_cache K V P) (key : K) :
    (Get pol s key).2 = s ∨ (Get pol s key).2 = policy_Touch pol s key := by
  unfold Get
  cases FindElem s key with
  | none => exact Or.inl rfl
  | some i =>
    right
    simp only
    cases (policy_Touch pol s key).cache_items_map[i]? <;> rfl

theorem Remove_absent (pol : Policy K P) {s : fixed_sized_cache K V P} {key : K}
    (h : map_find s.cache_items_map key = none) : Remove pol s key = (.ok false, s) := by
  simp [Remove, h]

theorem Remove_stored (pol : Policy K P) {s : fixed_sized_cache K V P} {key : K} {i : Nat}
    (h : map_find s.cache_items_map key = some i) :
    Remove pol s key =
      (.ok true,
        { cache_items_map := s.cache_items_map.eraseIdx i
          cache_policy := pol.Erase key s.cache_policy
          max_cache_size := s.max_cache_size
          policy_calls := s.policy_calls ++ [PolicyCall.Erase key] }) := by
  simp [Remove, h, Erase_stored pol h]

theorem Remove_size (pol : Policy K P) (s : fixed_sized_cache K V P) (key : K) :
    ∃ b s1, Remove pol s key = (.ok b, s1) ∧ s1.max_cache_size = s.max_cache_size ∧
      Size s1 ≤ Size s := by
  cases hf : map_find s.cache_items_map key with
  | none => exact ⟨_, _, Remove_absent pol hf, rfl, Nat.le_refl _⟩
  | some i =>
    refine ⟨_, _, Remove_stored pol hf, rfl, ?_⟩
    simp only [Size]
    exact List.length_eraseIdx_le _ _

theorem runPuts_size (pol : Policy K P) (ops : List (K × V)) :
    ∀ s : fixed_sized_cache K V P, Size s ≤ s.max_cache_size →
      (s.max_cache_size < SIZE_MAX ∨ Size s + ops.length ≤ SIZE_MAX) →
      puts_admissible pol s ops →
      ∃ s1, runPuts pol s ops = (.ok (), s1) ∧ s1.max_cache_size = s.max_cache_size ∧
        Size s1 ≤ s.max_cache_size := by
  induction ops with
  | nil => intro s h _ _; exact ⟨s, rfl, rfl, h⟩
  | cons op ops ih =>
    intro s hle hlen hadm
    simp only [puts_admissible] at hadm
    obtain ⟨s1, hp, hmax, hs1, hpres⟩ := Put_size pol s _ _ op.1 op.2
      (args_valid_object pol s op.1 op.2) hadm.1
    have hadm2 := hadm.2
    rw [hp] at hadm2
    simp only [List.length_cons] at hlen
    have h1 : Size s1 ≤ s1.max_cache_size := by
      rw [hmax]; exact hpres hle (by omega)
    obtain ⟨s2, hr, hmax2, hs2⟩ := ih s1 h1 (by omega) hadm2
    refine ⟨s2, ?_, hmax2.trans hmax, hmax ▸ hs2⟩
    simp only [runPuts, hp]
    exact hr

theorem Get_absent (pol : Policy K P) {s : fixed_sized_cache K V P} {key : K}
    (h : map_find s.cache_items_map key = none) :
    Get pol s key = (.error .range_error, s) := by
  simp [Get, FindElem, h]

theorem Get_stored (pol : Policy K P) {s : fixed_sized_cache K V P} {key : K} {v : V}
    (h : lookup s.cache_items_map key = some v) :
    Get pol s key =
      (.ok v,
        { cache_items_map := s.cache_items_map
          cache_policy := pol.Touch key s.cache_policy
          max_cache_size := s.max_cache_size
          policy_calls := s.policy_calls ++ [PolicyCall.Touch key] }) := by
  unfold lookup at h
  cases hf : map_find s.cache_items_map key with
  | none => simp [hf] at h
  | some i =>
    simp only [hf, Option.map_eq_some'] at h
    obtain ⟨e, he, hv⟩ := h
    simp [Get, FindElem, hf, policy_Touch, he, hv]

theorem lookup_of_mem {m : List (K × V)} {key : K} (h : key ∈ keys m) :
    ∃ v, lookup m key = some v := by
  cases hl : lookup m key with
  | none => exact absurd h (lookup_eq_none.mp hl)
  | some v => exact ⟨v, rfl⟩

theorem map_find_of_mem {m : List (K × V)} {key : K} (h : key ∈ keys m) :
    ∃ i, map_find m key = some i := by
  cases hf : map_find m key with
  | none => exact absurd h (map_find_eq_none.mp hf)
  | some i => exact ⟨i, rfl⟩

end step_lemmas

theorem overflows_of_lt {s : fixed_sized_cache K V P}
    (hsize : Size s + 1 > s.max_cache_size) (hfit : Size s < SIZE_MAX) :
    overflows s = true := by
  simp only [overflows, decide_eq_true_eq]
  simp only [Size, SIZE_MAX] at hsize hfit
  rw [Nat.mod_eq_of_lt (by omega)]
  exact hsize

/-! ## Facts about reachable states -/

theorem overflows_bound {s : fixed_sized_cache K V P} (ho : overflows s = true) :
    s.max_cache_size ≤ Size s := by
  simp only [overflows, decide_eq_true_eq] at ho
  have := Nat.mod_le (s.cache_items_map.length + 1) (2 ^ 64)
  simp only [Size]
  omega

theorem overflows_nonempty {s : fixed_sized_cache K V P} (hmax : 1 ≤ s.max_cache_size)
    (ho : overflows s = true) : 1 ≤ Size s :=
  Nat.le_trans hmax (overflows_bound ho)

section reach_lemmas

variable [DecidableEq K]

end reach_lemmas

theorem ctor_max_cache_size (pol : Policy K P) (max_size : Nat) :
    1 ≤ (ctor pol max_size : fixed_sized_cache K V P).max_cache_size ∧
    (max_size = 0 → (ctor pol max_size : fixed_sized_cache K V P).max_cache_size = SIZE_MAX) ∧
    (max_size ≠ 0 → (ctor pol max_size : fixed_sized_cache K V P).max_cache_size = max_size) := by
  by_cases h : max_size = 0
  · simp [ctor, h, SIZE_MAX]
  · simp only [ctor, h, if_false, ne_eq, not_false_eq_true, true_implies, false_implies,
      and_true]
    omega

/-! ## Facts about the unbounded mode -/

theorem overflows_unbounded {s : fixed_sized_cache K V P}
    (hmax : s.max_cache_size = SIZE_MAX) : overflows s = false := by
  simp only [overflows, decide_eq_false_iff_not, not_lt, hmax, SIZE_MAX]
  have := Nat.mod_lt (s.cache_items_map.length + 1) (show 0 < 2 ^ 64 by decide)
  omega

theorem Put_no_overflow [DecidableEq K] (pol : Policy K P) (s : fixed_sized_cache K V P)
    (kr : ArgRef K V K) (vr : ArgRef K V V) (key : K) (value : V)
    (hk : kr.read s.cache_items_map = .ok key)
    (hv : vr.read s.cache_items_map = .ok value)
    (ho : overflows s = false) :
    ∃ s1, Put pol s kr vr = (.ok (), s1) ∧
      s1.max_cache_size = s.max_cache_size ∧
      (s1.policy_calls = s.policy_calls ++ [PolicyCall.Touch key] ∨
        s1.policy_calls = s.policy_calls ++ [PolicyCall.Insert key]) ∧
      (∀ k, k ∈ keys s1.cache_items_map ↔ k = key ∨ k ∈ keys s.cache_items_map) ∧
      (key ∉ keys s.cache_items_map → Size s1 = Size s + 1) := by
  have hcand : candidate_stored pol s key := by
    intro _ h
    rw [ho] at h
    exact absurd h (by decide)
  have ha : args_valid pol s kr vr key value := by
    refine ⟨hk, hv, ?_⟩
    intro _ h
    rw [ho] at h
    exact absurd h (by decide)
  rcases Put_cases pol s kr vr key value ha hcand with
    ⟨i, hf, hp⟩ | ⟨hf, _, hp⟩ | ⟨j, _, h, _, _⟩
  · obtain ⟨e, he, hke⟩ := map_find_key hf
    have hks := keys_set he value
    rw [hke] at hks
    have hmem : key ∈ keys s.cache_items_map := by
      by_contra hn
      rw [map_find_eq_none.mpr hn] at hf
      exact absurd hf (by simp)
    refine ⟨_, hp, rfl, Or.inl rfl, ?_, fun hn => absurd hmem hn⟩
    intro k
    simp only [hks]
    constructor
    · exact Or.inr
    · rintro (rfl | h)
      · exact hmem
      · exact h
  · refine ⟨_, hp, rfl, Or.inr rfl, ?_, fun _ => by simp [Size]⟩
    intro k
    simp [keys]
  · rw [ho] at h
    exact absurd h (by decide)

theorem runPuts_unbounded [DecidableEq K] (pol : Policy K P) (ops : List (K × V)) :
    ∀ s : fixed_sized_cache K V P, s.max_cache_size = SIZE_MAX →
      ∃ s1, runPuts pol s ops = (.ok (), s1) ∧
        s1.max_cache_size = SIZE_MAX ∧
        (∀ call ∈ s1.policy_calls, call ∈ s.policy_calls ∨
          ∃ k, call = PolicyCall.Insert k ∨ call = PolicyCall.Touch k) ∧
        (∀ k, k ∈ keys s1.cache_items_map ↔
          k ∈ keys s.cache_items_map ∨ k ∈ ops.map Prod.fst) ∧
        ((ops.map Prod.fst).Nodup → (∀ k ∈ ops.map Prod.fst, k ∉ keys s.cache_items_map) →
          Size s1 = Size s + ops.length) := by
  induction ops with
  | nil =>
    intro s hmax
    exact ⟨s, rfl, hmax, fun c hc => Or.inl hc, fun k => by simp, fun _ _ => by simp⟩
  | cons op ops ih =>
    intro s hmax
    obtain ⟨s1, hp, hm1, hcalls1, hkeys1, hsize1⟩ :=
      Put_no_overflow pol s (ArgRef.object op.1) (ArgRef.object op.2) op.1 op.2 rfl rfl
        (overflows_unbounded hmax)
    obtain ⟨s2, hr, hm2, hcalls2, hkeys2, hsize2⟩ := ih s1 (hm1.trans hmax)
    refine ⟨s2, by simp only [runPuts, hp]; exact hr, hm2, ?_, ?_, ?_⟩
    · intro call hc
      rcases hcalls2 call hc with h | h
      · rcases hcalls1 with h1 | h1 <;> rw [h1, List.mem_append, List.mem_singleton] at h
        · rcases h with h | h
          · exact Or.inl h
          · exact Or.inr ⟨op.1, Or.inr h⟩
        · rcases h with h | h
          · exact Or.inl h
          · exact Or.inr ⟨op.1, Or.inl h⟩
      · exact Or.inr h
    · intro k
      rw [hkeys2, hkeys1]
      simp only [List.map_cons, List.mem_cons]
      tauto
    · intro hnd hnew
      simp only [List.map_cons, List.nodup_cons] at hnd
      have h1 := hsize1 (hnew op.1 (by simp))
      have h2 := hsize2 hnd.2 (by
        intro k hk hmem
        rcases (hkeys1 k).mp hmem with rfl | h
        · exact hnd.1 hk
        · exact hnew k (by simp [hk]) h)
      simp only [List.length_cons]
      omega

/-! ## Facts about the eviction branch of `Put` -/

section evict_lemmas

variable [DecidableEq K]

theorem Put_evict_absent (pol : Policy K P) {s : fixed_sized_cache K V P}
    {kr : ArgRef K V K} (vr : ArgRef K V V) {key : K}
    (hk : kr.read s.cache_items_map = .ok key)
    (h : map_find s.cache_items_map key = none) (ho : overflows s = true)
    (hc : map_find s.cache_items_map (pol.ReplCandidate s.cache_policy).1 = none) :
    Put pol s kr vr =
      (.error .invalid_iterator,
        { cache_items_map := s.cache_items_map
          cache_policy := pol.Erase (pol.ReplCandidate s.cache_policy).1
            (pol.ReplCandidate s.cache_policy).2
          max_cache_size := s.max_cache_size
          policy_calls := s.policy_calls ++
            [PolicyCall.ReplCandidate,
             PolicyCall.Erase (pol.ReplCandidate s.cache_policy).1] }) := by
  have hc2 : map_find (policy_ReplCandidate pol s).2.cache_items_map
      (pol.ReplCandidate s.cache_policy).1 = none := by
    simpa [policy_ReplCandidate] using hc
  have he := Erase_absent pol hc2
  simp only [Put, hk, FindForChange, h, ho, if_true]
  simp only [policy_ReplCandidate] at he ⊢
  rw [he]
  simp [policy_Erase]

theorem Insert_cases (pol : Policy K P) (s : fixed_sized_cache K V P)
    (kr : ArgRef K V K) (vr : ArgRef K V V) :
    Insert pol s kr vr = (.error .dangling_reference, s) ∨
    (∃ k, Insert pol s kr vr = (.error .dangling_reference, policy_Insert pol s k)) ∨
    (∃ k v, kr.read s.cache_items_map = .ok k ∧ vr.read s.cache_items_map = .ok v ∧
      Insert pol s kr vr =
        (.ok (), { cache_items_map := map_emplace s.cache_items_map (k, v)
                   cache_policy := pol.Insert k s.cache_policy
                   max_cache_size := s.max_cache_size
                   policy_calls := s.policy_calls ++ [PolicyCall.Insert k] })) := by
  cases hk : kr.read s.cache_items_map with
  | error e => exact Or.inl (Insert_key_dangling pol vr hk)
  | ok k =>
    cases hv : vr.read s.cache_items_map with
    | error e => exact Or.inr (Or.inl ⟨k, Insert_value_dangling pol hk hv⟩)
    | ok v => exact Or.inr (Or.inr ⟨k, v, rfl, rfl, Insert_ok pol hk hv⟩)

theorem Insert_frame (pol : Policy K P) (s : fixed_sized_cache K V P)
    (kr : ArgRef K V K) (vr : ArgRef K V V) :
    (Insert pol s kr vr).2.max_cache_size = s.max_cache_size ∧
    (Insert pol s kr vr).1 ≠ .error .invalid_iterator ∧
    ∃ rest, (Insert pol s kr vr).2.policy_calls = s.policy_calls ++ rest ∧
      (rest = [] ∨ ∃ k, rest = [PolicyCall.Insert k]) := by
  rcases Insert_cases pol s kr vr with h | ⟨k, h⟩ | ⟨k, v, _, _, h⟩ <;> rw [h]
  · exact ⟨rfl, by simp, [], by simp, Or.inl rfl⟩
  · exact ⟨rfl, by simp, [PolicyCall.Insert k], rfl, Or.inr ⟨k, rfl⟩⟩
  · exact ⟨rfl, by simp, [PolicyCall.Insert k], rfl, Or.inr ⟨k, rfl⟩⟩

theorem Put_evict_calls (pol : Policy K P) {s : fixed_sized_cache K V P}
    {kr : ArgRef K V K} (vr : ArgRef K V V) {key : K}
    (hk : kr.read s.cache_items_map = .ok key)
    (h : map_find s.cache_items_map key = none) (ho : overflows s = true) :
    (Put pol s kr vr).2.max_cache_size = s.max_cache_size ∧
    ∃ rest, (Put pol s kr vr).2.policy_calls =
        s.policy_calls ++
          [PolicyCall.ReplCandidate,
           PolicyCall.Erase (pol.ReplCandidate s.cache_policy).1] ++ rest ∧
      (rest = [] ∨ ∃ k, rest = [PolicyCall.Insert k]) := by
  cases hc : map_find s.cache_items_map (pol.ReplCandidate s.cache_policy).1 with
  | none =>
    rw [Put_evict_absent pol vr hk h ho hc]
    exact ⟨rfl, [], by simp, Or.inl rfl⟩
  | some j =>
    rw [Put_evicting pol vr hk h ho hc]
    obtain ⟨hm, _, rest, hcalls, hrest⟩ := Insert_frame pol
      { cache_items_map := s.cache_items_map.eraseIdx j
        cache_policy := pol.Erase (pol.ReplCandidate s.cache_policy).1
          (pol.ReplCandidate s.cache_policy).2
        max_cache_size := s.max_cache_size
        policy_calls := s.policy_calls ++
          [PolicyCall.ReplCandidate,
           PolicyCall.Erase (pol.ReplCandidate s.cache_policy).1] } kr vr
    exact ⟨hm, rest, hcalls, hrest⟩

theorem Put_policy_calls (pol : Policy K P) (s : fixed_sized_cache K V P)
    (kr : ArgRef K V K) (vr : ArgRef K V V) :
    (Put pol s kr vr).2.max_cache_size = s.max_cache_size ∧
    ((∃ made, (Put pol s kr vr).2.policy_calls = s.policy_calls ++ made ∧
        PolicyCall.ReplCandidate ∉ made) ∨
      (overflows s = true ∧
        ∃ rest, (Put pol s kr vr).2.policy_calls =
          s.policy_calls ++
            [PolicyCall.ReplCandidate,
             PolicyCall.Erase (pol.ReplCandidate s.cache_policy).1] ++ rest ∧
          (rest = [] ∨ ∃ k, rest = [PolicyCall.Insert k]))) := by
  cases hk : kr.read s.cache_items_map with
  | error e =>
    rw [Put_key_dangling pol vr hk]
    exact ⟨rfl, Or.inl ⟨[], by simp, by simp⟩⟩
  | ok key =>
    cases hf : map_find s.cache_items_map key with
    | some i =>
      cases hv : vr.read s.cache_items_map with
      | error e =>
        rw [Put_update_value_dangling pol hk hv hf]
        exact ⟨rfl, Or.inl ⟨[PolicyCall.Touch key], rfl, by simp⟩⟩
      | ok value =>
        rw [Put_update pol hk hv hf]
        exact ⟨rfl, Or.inl ⟨[PolicyCall.Touch key], rfl, by simp⟩⟩
    | none =>
      cases ho : overflows s with
      | false =>
        rw [Put_no_evict pol vr hk hf ho]
        obtain ⟨hm, _, rest, hcalls, hrest⟩ := Insert_frame pol s kr vr
        refine ⟨hm, Or.inl ⟨rest, hcalls, ?_⟩⟩
        rcases hrest with rfl | ⟨k, rfl⟩ <;> simp
      | true =>
        obtain ⟨hm, rest, hcalls, hrest⟩ := Put_evict_calls pol vr hk hf ho
        exact ⟨hm, Or.inr ⟨rfl, rest, hcalls, hrest⟩⟩

theorem Put_max_cache_size (pol : Policy K P) (s : fixed_sized_cache K V P)
    (kr : ArgRef K V K) (vr : ArgRef K V V) :
    (Put pol s kr vr).2.max_cache_size = s.max_cache_size :=
  (Put_policy_calls pol s kr vr).1

theorem Put_not_invalid_iterator (pol : Policy K P) (s : fixed_sized_cache K V P)
    (kr : ArgRef K V K) (vr : ArgRef K V V)
    (h : ∀ key, kr.read s.cache_items_map = .ok key → candidate_stored pol s key) :
    (Put pol s kr vr).1 ≠ .error .invalid_iterator := by
  cases hk : kr.read s.cache_items_map with
  | error e =>
    rw [Put_key_dangling pol vr hk]
    simp
  | ok key =>
    cases hf : map_find s.cache_items_map key with
    | some i =>
      cases hv : vr.read s.cache_items_map with
      | error e =>
        rw [Put_update_value_dangling pol hk hv hf]
        simp
      | ok value =>
        rw [Put_update pol hk hv hf]
        simp
    | none =>
      cases ho : overflows s with
      | false =>
        rw [Put_no_evict pol vr hk hf ho]
        exact (Insert_frame pol s kr vr).2.1
      | true =>
        obtain ⟨j, hc⟩ := map_find_of_mem (h key hk hf ho)
        rw [Put_evicting pol vr hk hf ho hc]
        exact (Insert_frame pol _ kr vr).2.1

theorem run_max_cache_size (pol : Policy K P) (calls : List (Call K V)) :
    ∀ s : fixed_sized_cache K V P,
      (run pol s calls).max_cache_size = s.max_cache_size := by
  induction calls with
  | nil => intro s; rfl
  | cons c calls ih =>
    intro s
    have hstep : (after pol c s).max_cache_size = s.max_cache_size := by
      cases c with
      | Put key value => exact Put_max_cache_size pol s _ _
      | Get key =>
        simp only [after]
        rcases Get_state pol s key with hg | hg <;> rw [hg]
        rfl
      | Cached key => rfl
      | Size => rfl
      | Remove key =>
        obtain ⟨b, s1, hr, hmax, _⟩ := Remove_size pol s key
        simp only [after, hr, hmax]
      | Clear => simp [after, Clear, Clear_notify_spec]
    have := ih (after pol c s)
    simp only [run, List.foldl_cons] at this ⊢
    rw [this, hstep]

end evict_lemmas

theorem map_emplace_length [DecidableEq K] (m : List (K × V)) (e : K × V) :
    (map_emplace m e).length ≤ m.length + 1 := by
  unfold map_emplace
  cases map_find m e.1 <;> simp

theorem Insert_size [DecidableEq K] (pol : Policy K P) (s : fixed_sized_cache K V P)
    (kr : ArgRef K V K) (vr : ArgRef K V V) :
    Size (Insert pol s kr vr).2 ≤ Size s + 1 := by
  rcases Insert_cases pol s kr vr with h | ⟨k, h⟩ | ⟨k, v, _, _, h⟩ <;> rw [h]
  · exact Nat.le_succ _
  · exact Nat.le_succ _
  · exact map_emplace_length _ _

theorem Put_size_any [DecidableEq K] (pol : Policy K P) (s : fixed_sized_cache K V P)
    (kr : ArgRef K V K) (vr : ArgRef K V V)
    (h : ∀ key, kr.read s.cache_items_map = .ok key → candidate_stored pol s key)
    (hle : Size s ≤ s.max_cache_size) (hfit : Size s < SIZE_MAX) :
    Size (Put pol s kr vr).2 ≤ s.max_cache_size := by
  cases hk : kr.read s.cache_items_map with
  | error e =>
    rw [Put_key_dangling pol vr hk]
    exact hle
  | ok key =>
    cases hf : map_find s.cache_items_map key with
    | some i =>
      cases hv : vr.read s.cache_items_map with
      | error e =>
        rw [Put_update_value_dangling pol hk hv hf]
        exact hle
      | ok value =>
        rw [Put_update pol hk hv hf]
        simpa [Size] using hle
    | none =>
      cases ho : overflows s with
      | false =>
        rw [Put_no_evict pol vr hk hf ho]
        have h1 := Insert_size pol s kr vr
        simp only [overflows, decide_eq_false_iff_not, not_lt] at ho
        simp only [Size, SIZE_MAX] at hfit h1 ⊢
        rw [Nat.mod_eq_of_lt (by omega)] at ho
        omega
      | true =>
        obtain ⟨j, hc⟩ := map_find_of_mem (h key hk hf ho)
        have hj := map_find_lt hc
        rw [Put_evicting pol vr hk hf ho hc]
        have h1 := Insert_size pol
          { cache_items_map := s.cache_items_map.eraseIdx j
            cache_policy := pol.Erase (pol.ReplCandidate s.cache_policy).1
              (pol.ReplCandidate s.cache_policy).2
            max_cache_size := s.max_cache_size
            policy_calls := s.policy_calls ++
              [PolicyCall.ReplCandidate,
               PolicyCall.Erase (pol.ReplCandidate s.cache_policy).1] } kr vr
        simp only [Size, List.length_eraseIdx_of_lt hj] at h1 hle ⊢
        omega

/-! ## The contract -/

/-- C1: size bound invariant. For every capacity `c > 0` the freshly
constructed cache has bound `c` and `Size() ≤ c`; every `Put` with usable
arguments whose eviction candidate, when one is asked for, is a key of the
store returns normally and preserves `Size() ≤ c` (on a store of fewer than
`SIZE_MAX` entries, where `size() + 1` does not wrap around), and whatever
its arguments refer to, the state a `Put` leaves has `Size() ≤ c`; `Get`,
`Remove` and `Clear` preserve it; hence after every finite sequence of such
`Put` calls on the new cache `Size() ≤ c` (for `c = SIZE_MAX`: every sequence
of at most `SIZE_MAX` calls). -/
theorem size_bound_invariant [DecidableEq K] (pol : Policy K P) (c : Nat) (hc : 0 < c) :
    ((ctor pol c : fixed_sized_cache K V P).max_cache_size = c ∧
      Size (ctor pol c : fixed_sized_cache K V P) ≤ c) ∧
    (∀ (s : fixed_sized_cache K V P) (kr : ArgRef K V K) (vr : ArgRef K V V)
      (key : K) (value : V),
      s.max_cache_size = c → Size s ≤ c → Size s < SIZE_MAX →
      args_valid pol s kr vr key value → candidate_stored pol s key →
      ∃ s1, Put pol s kr vr = (.ok (), s1) ∧ s1.max_cache_size = c ∧ Size s1 ≤ c) ∧
    (∀ (s : fixed_sized_cache K V P) (kr : ArgRef K V K) (vr : ArgRef K V V),
      s.max_cache_size = c → Size s ≤ c → Size s < SIZE_MAX →
      (∀ key, kr.read s.cache_items_map = .ok key → candidate_stored pol s key) →
      (Put pol s kr vr).2.max_cache_size = c ∧ Size (Put pol s kr vr).2 ≤ c) ∧
    (∀ (s : fixed_sized_cache K V P) (key : K),
      s.max_cache_size = c → Size s ≤ c →
      (Get pol s key).2.max_cache_size = c ∧ Size (Get pol s key).2 ≤ c) ∧
    (∀ (s : fixed_sized_cache K V P) (key : K),
      s.max_cache_size = c → Size s ≤ c →
      ∃ b s1, Remove pol s key = (.ok b, s1) ∧ s1.max_cache_size = c ∧ Size s1 ≤ c) ∧
    (∀ (s : fixed_sized_cache K V P),
      s.max_cache_size = c → Size s ≤ c →
      (Clear pol s).max_cache_size = c ∧ Size (Clear pol s) ≤ c) ∧
    (∀ (ops : List (K × V)),
      (c < SIZE_MAX ∨ ops.length ≤ SIZE_MAX) →
      puts_admissible pol (ctor pol c : fixed_sized_cache K V P) ops →
      ∃ s1, runPuts pol (ctor pol c : fixed_sized_cache K V P) ops = (.ok (), s1) ∧
        s1.max_cache_size = c ∧ Size s1 ≤ c) := by
  have hctor : (ctor pol c : fixed_sized_cache K V P).max_cache_size = c := by
    simp [ctor, Nat.pos_iff_ne_zero.mp hc]
  refine ⟨⟨hctor, by simp [ctor, Size]⟩, ?_, ?_, ?_, ?_, ?_, ?_⟩
  · intro s kr vr key value hm hle hlt ha hcand
    obtain ⟨s1, hp, hmax, _, hpres⟩ := Put_size pol s kr vr key value ha hcand
    exact ⟨s1, hp, hmax.trans hm, hm ▸ hpres (hm ▸ hle) hlt⟩
  · intro s kr vr hm hle hlt hcand
    refine ⟨(Put_max_cache_size pol s kr vr).trans hm, ?_⟩
    have := Put_size_any pol s kr vr hcand (hm ▸ hle) hlt
    rw [hm] at this
    exact this
  · intro s key hm hle
    rcases Get_state pol s key with h | h <;> rw [h]
    · exact ⟨hm, hle⟩
    · exact ⟨hm, hle⟩
  · intro s key hm hle
    obtain ⟨b, s1, hr, hmax, hsz⟩ := Remove_size pol s key
    exact ⟨b, s1, hr, hmax.trans hm, Nat.le_trans hsz hle⟩
  · intro s hm _
    exact ⟨by simp [Clear, Clear_notify_spec, hm], by simp [Clear, Size]⟩
  · intro ops hlen hadm
    have h0 : Size (ctor pol c : fixed_sized_cache K V P) = 0 := by simp [ctor, Size]
    obtain ⟨s1, hr, hmax, hsz⟩ := runPuts_size pol ops (ctor pol c) (by rw [h0]; omega)
      (by rw [hctor, h0]; omega) hadm
    exact ⟨s1, hr, hmax.trans hctor, hctor ▸ hsz⟩

/-- C1 at capacity 2 with the first-in-first-out policy: three distinct keys
are put, the third `Put` evicts, and the size stays within the bound. -/
theorem size_bound_invariant_witness :
    0 < 2 ∧
    puts_admissible (fifo : Policy Nat (List Nat)) (ctor fifo 2) [(1, 10), (2, 20), (3, 30)] ∧
    ∃ s1, runPuts (fifo : Policy Nat (List Nat)) (ctor fifo 2) [(1, 10), (2, 20), (3, 30)]
        = (.ok (), s1) ∧ s1.max_cache_size = 2 ∧ Size s1 ≤ 2 :=
  ⟨by decide, by decide,
   (size_bound_invariant (fifo : Policy Nat (List Nat)) 2 (by decide)).2.2.2.2.2.2
     [(1, 10), (2, 20), (3, 30)] (Or.inl (by decide)) (by decide)⟩

/-- Round trip for usable arguments: from every state, when the arguments of
`Put` read as `key` and `value` and are not references into an entry the
`Put` evicts, and the eviction candidate (if one is asked for) is a key of
the store, `Put` returns normally and `Get(key)` on the resulting state
returns `value`. -/
theorem round_trip_usable_args [DecidableEq K] (pol : Policy K P)
    (s : fixed_sized_cache K V P) (kr : ArgRef K V K) (vr : ArgRef K V V)
    (key : K) (value : V)
    (ha : args_valid pol s kr vr key value)
    (h : candidate_stored pol s key) :
    ∃ s1, Put pol s kr vr = (.ok (), s1) ∧ (Get pol s1 key).1 = .ok value := by
  rcases Put_cases pol s kr vr key value ha h with
    ⟨i, hf, hp⟩ | ⟨_, _, hp⟩ | ⟨j, _, _, _, hp⟩
  · refine ⟨_, hp, ?_⟩
    rw [Get_stored pol (v := value) (by exact lookup_set_same hf value)]
  · refine ⟨_, hp, ?_⟩
    rw [Get_stored pol (v := value) (by simp [lookup_cons])]
  · refine ⟨_, hp, ?_⟩
    rw [Get_stored pol (v := value) (by simp [lookup_cons])]

/-- C2: Put/Get round trip, at the call `Put(3, Get(1))` on the full store
`2 ↦ 20, 1 ↦ 10` of capacity 2 whose policy names key 1. The policy
precondition holds and the value argument, a reference to the value of
entry 1, reads 10 on entry. `Put` erases entry 1 and only then reads the
value, through a reference that now dangles: the call does not store 10 for
key 3, and `Get(3)` afterwards does not return 10. -/
theorem put_get_round_trip_alias :
    candidate_stored (fifo : Policy Nat (List Nat)) full2 3 ∧
    (ArgRef.entry 1 Prod.snd : ArgRef Nat Nat Nat).read full2.cache_items_map = .ok 10 ∧
    Put (fifo : Policy Nat (List Nat)) full2 (ArgRef.object 3) (ArgRef.entry 1 Prod.snd) =
      (.error .dangling_reference,
        { cache_items_map := [(2, 20)], cache_policy := [2, 3], max_cache_size := 2,
          policy_calls :=
            [PolicyCall.ReplCandidate, PolicyCall.Erase 1, PolicyCall.Insert 3] }) ∧
    (Get (fifo : Policy Nat (List Nat))
      (Put (fifo : Policy Nat (List Nat)) full2 (ArgRef.object 3)
        (ArgRef.entry 1 Prod.snd)).2 3).1 = .error .range_error :=
  ⟨by decide, rfl, rfl, rfl⟩

/-- Overflowing insertion for usable arguments: on a store with unique keys
whose size + 1 exceeds the capacity (fewer than `SIZE_MAX` entries), for
arguments that read as a key that is not stored and a value, neither a
reference into the entry of the candidate `c`, and `c` stored, `Put` calls
`ReplCandidate()`, `Erase(c)`, `Insert(key)` on the policy, in that order, and
the new store is the old one without the entry of `c` and with
`(key, value)`. -/
theorem overflowing_insertion_usable_args [DecidableEq K] (pol : Policy K P)
    (s : fixed_sized_cache K V P) (kr : ArgRef K V K) (vr : ArgRef K V V)
    (key : K) (value : V)
    (ha : args_valid pol s kr vr key value)
    (hkeys : unique_keys s)
    (hsize : Size s + 1 > s.max_cache_size) (hfit : Size s < SIZE_MAX)
    (hnew : key ∉ keys s.cache_items_map)
    (hcand : (pol.ReplCandidate s.cache_policy).1 ∈ keys s.cache_items_map) :
    ∃ s1 j, Put pol s kr vr = (.ok (), s1) ∧
      s1.policy_calls = s.policy_calls ++
        [PolicyCall.ReplCandidate,
         PolicyCall.Erase (pol.ReplCandidate s.cache_policy).1,
         PolicyCall.Insert key] ∧
      s1.cache_policy = pol.Insert key
        (pol.Erase (pol.ReplCandidate s.cache_policy).1
          (pol.ReplCandidate s.cache_policy).2) ∧
      map_find s.cache_items_map (pol.ReplCandidate s.cache_policy).1 = some j ∧
      s1.cache_items_map = (key, value) :: s.cache_items_map.eraseIdx j ∧
      lookup s1.cache_items_map key = some value ∧
      lookup s1.cache_items_map (pol.ReplCandidate s.cache_policy).1 = none ∧
      (∀ k2, k2 ≠ key → k2 ≠ (pol.ReplCandidate s.cache_policy).1 →
        lookup s1.cache_items_map k2 = lookup s.cache_items_map k2) ∧
      Size s1 = Size s ∧
      s1.max_cache_size = s.max_cache_size := by
  have hf := map_find_eq_none.mpr hnew
  have ho := overflows_of_lt hsize hfit
  obtain ⟨j, hc⟩ := map_find_of_mem hcand
  have hj := map_find_lt hc
  have hne : (pol.ReplCandidate s.cache_policy).1 ≠ key := fun h => hnew (h ▸ hcand)
  obtain ⟨hk, hv, hout⟩ := ha
  obtain ⟨hko, hvo⟩ := hout hf ho
  have hk2 := (ArgRef.read_eraseIdx hc hko).trans hk
  have hv2 := (ArgRef.read_eraseIdx hc hvo).trans hv
  refine ⟨_, j, Put_evict pol hk hf ho hc hk2 hv2, rfl, rfl, hc, rfl, ?_, ?_, ?_, ?_, rfl⟩
  · simp [lookup_cons]
  · rw [lookup_cons, if_neg (fun h => hne h.symm), lookup_eq_none]
    exact not_mem_keys_eraseIdx_find hkeys hc
  · intro k2 h1 h2
    rw [lookup_cons, if_neg (fun h => h1 h.symm)]
    exact lookup_eraseIdx_other hc h2
  · simp only [Size, List.length_cons, List.length_eraseIdx_of_lt hj]
    omega

/-- C3: overflowing insertion, at the call `Put(3, Get(1))` on the full store
`2 ↦ 20, 1 ↦ 10` of capacity 2 whose policy names key 1. The store has
unique keys, its size + 1 exceeds the capacity, key 3 is not stored, the
candidate 1 is stored, and the value argument reads 10 on entry. The calls on
the policy are `ReplCandidate()`, `Erase(1)`, `Insert(3)`, entry 1 is erased,
and the value is then read through the dangling reference: the entry
`(3, 10)` is not added and the store is left with one entry. -/
theorem overflowing_insertion_alias :
    unique_keys full2 ∧ Size full2 + 1 > full2.max_cache_size ∧ Size full2 < SIZE_MAX ∧
    3 ∉ keys full2.cache_items_map ∧
    ((fifo : Policy Nat (List Nat)).ReplCandidate full2.cache_policy).1 ∈
      keys full2.cache_items_map ∧
    (ArgRef.entry 1 Prod.snd : ArgRef Nat Nat Nat).read full2.cache_items_map = .ok 10 ∧
    (Put (fifo : Policy Nat (List Nat)) full2 (ArgRef.object 3)
      (ArgRef.entry 1 Prod.snd)).1 = .error .dangling_reference ∧
    (Put (fifo : Policy Nat (List Nat)) full2 (ArgRef.object 3)
      (ArgRef.entry 1 Prod.snd)).2.policy_calls =
        [PolicyCall.ReplCandidate, PolicyCall.Erase 1, PolicyCall.Insert 3] ∧
    (Put (fifo : Policy Nat (List Nat)) full2 (ArgRef.object 3)
      (ArgRef.entry 1 Prod.snd)).2.cache_items_map = [(2, 20)] ∧
    lookup (Put (fifo : Policy Nat (List Nat)) full2 (ArgRef.object 3)
      (ArgRef.entry 1 Prod.snd)).2.cache_items_map 3 = none :=
  ⟨by decide, by decide, by decide, by decide, by decide, rfl, rfl, rfl, rfl, rfl⟩

/-- C4: update of an existing key. For every state (at capacity or not) and
every call `Put(key, value)` whose arguments read as a stored key and a value
(objects of the caller or references into the store), `Put` returns normally,
makes exactly one call on the policy, `Touch(key)`, maps `key` to `value`, and
leaves the key set, `Size()`, the bound and the value of every other key
unchanged. In particular, on a new cache of capacity 2,
`Put(A, 1); Put(A, 2)` gives `Get(A) = 2` and `Size() = 1`. -/
theorem update_existing_key [DecidableEq K] (pol : Policy K P) :
    (∀ (s : fixed_sized_cache K V P) (kr : ArgRef K V K) (vr : ArgRef K V V)
      (key : K) (value : V),
      kr.read s.cache_items_map = .ok key → vr.read s.cache_items_map = .ok value →
      key ∈ keys s.cache_items_map →
      ∃ s1, Put pol s kr vr = (.ok (), s1) ∧
        s1.policy_calls = s.policy_calls ++ [PolicyCall.Touch key] ∧
        s1.cache_policy = pol.Touch key s.cache_policy ∧
        lookup s1.cache_items_map key = some value ∧
        (∀ k2, k2 ≠ key → lookup s1.cache_items_map k2 = lookup s.cache_items_map k2) ∧
        keys s1.cache_items_map = keys s.cache_items_map ∧
        Size s1 = Size s ∧
        s1.max_cache_size = s.max_cache_size) ∧
    (∀ A : K, ∃ s1 s2 : fixed_sized_cache K Nat P,
      Put pol (ctor pol 2) (ArgRef.object A) (ArgRef.object 1) = (.ok (), s1) ∧
        Put pol s1 (ArgRef.object A) (ArgRef.object 2) = (.ok (), s2) ∧
        (Get pol s2 A).1 = .ok 2 ∧ Size s2 = 1 ∧
        s2.policy_calls = [PolicyCall.Insert A, PolicyCall.Touch A]) := by
  constructor
  · intro s kr vr key value hk hv hmem
    obtain ⟨i, hf⟩ := map_find_of_mem hmem
    obtain ⟨e, he, hke⟩ := map_find_key hf
    refine ⟨_, Put_update pol hk hv hf, rfl, rfl, lookup_set_same hf value, ?_, ?_, ?_, rfl⟩
    · intro k2 hne
      exact lookup_set_other hf value hne
    · have := keys_set he value
      rw [hke] at this
      exact this
    · simp [Size]
  · intro A
    have h1 : Put pol (ctor pol 2 : fixed_sized_cache K Nat P)
        (ArgRef.object A) (ArgRef.object 1) =
        (.ok (), { cache_items_map := [(A, 1)]
                   cache_policy := pol.Insert A pol.init
                   max_cache_size := 2
                   policy_calls := [PolicyCall.Insert A] }) := by
      have hp := @Put_insert K Nat P _ pol (ctor pol 2) (ArgRef.object A) (ArgRef.object 1)
        A 1 rfl rfl (by simp [ctor, map_find]) (by simp [ctor, overflows])
      simpa [ctor] using hp
    have h2 : Put pol ({ cache_items_map := [(A, 1)]
                         cache_policy := pol.Insert A pol.init
                         max_cache_size := 2
                         policy_calls := [PolicyCall.Insert A] } :
          fixed_sized_cache K Nat P) (ArgRef.object A) (ArgRef.object 2) = _ :=
      Put_update pol (i := 0) rfl rfl (by simp [map_find])
    refine ⟨_, _, h1, h2, ?_, ?_, ?_⟩
    · rw [Get_stored pol (v := 2) (by simp [lookup_cons])]
    · simp [Size]
    · simp

/-- C4 on the full store `2 ↦ 20, 1 ↦ 10` of capacity 2: `Put(1, Get(2))`,
the value being a reference to the value of entry 2. -/
theorem update_existing_key_witness :
    (ArgRef.object 1 : ArgRef Nat Nat Nat).read full2.cache_items_map = .ok 1 ∧
    (ArgRef.entry 2 Prod.snd : ArgRef Nat Nat Nat).read full2.cache_items_map = .ok 20 ∧
    (1 : Nat) ∈ keys full2.cache_items_map ∧
    ∃ s1, Put (fifo : Policy Nat (List Nat)) full2 (ArgRef.object 1)
        (ArgRef.entry 2 Prod.snd) = (.ok (), s1) ∧
      s1.policy_calls = full2.policy_calls ++ [PolicyCall.Touch 1] ∧
      s1.cache_policy = fifo.Touch 1 full2.cache_policy ∧
      lookup s1.cache_items_map 1 = some 20 ∧
      (∀ k2, k2 ≠ 1 → lookup s1.cache_items_map k2 = lookup full2.cache_items_map k2) ∧
      keys s1.cache_items_map = keys full2.cache_items_map ∧
      Size s1 = Size full2 ∧
      s1.max_cache_size = full2.max_cache_size :=
  ⟨rfl, rfl, by decide,
   (update_existing_key (fifo : Policy Nat (List Nat))).1 full2 (ArgRef.object 1)
     (ArgRef.entry 2 Prod.snd) 1 20 rfl rfl (by decide)⟩

/-- C5: `Get` fails exactly on absence and then changes nothing. `Get(key)`
fails if and only if `key` is not a key of the store; the failure is then the
range error (NotFound) and the state after the call (store, policy state,
bound, history of policy calls) is the state before it. -/
theorem get_fails_iff_absent [DecidableEq K] (pol : Policy K P)
    (s : fixed_sized_cache K V P) (key : K) :
    ((∃ e, (Get pol s key).1 = .error e) ↔ key ∉ keys s.cache_items_map) ∧
    ((Get pol s key).1 = .error .range_error ↔ key ∉ keys s.cache_items_map) ∧
    (key ∉ keys s.cache_items_map → Get pol s key = (.error .range_error, s)) := by
  by_cases hmem : key ∈ keys s.cache_items_map
  · obtain ⟨v, hv⟩ := lookup_of_mem hmem
    rw [Get_stored pol hv]
    simp [hmem]
  · rw [Get_absent pol (map_find_eq_none.mpr hmem)]
    simp [hmem]

/-- C5 on the store `2 ↦ 20, 1 ↦ 10`: `Get(7)` fails and returns the state
it was given. -/
theorem get_fails_iff_absent_witness :
    (7 : Nat) ∉ keys [(2, 20), (1, 10)] ∧
    Get (fifo : Policy Nat (List Nat)) full2 7 =
      (.error .range_error, full2) :=
  ⟨by decide,
   (get_fails_iff_absent (fifo : Policy Nat (List Nat)) full2 7).2.2 (by decide)⟩

/-- C6: `Get` on a present key. For every state and every stored key,
`Get(key)` returns the value stored for the key, makes exactly one call on the
policy, `Touch(key)`, and leaves the store (key set, values, `Size()`) and the
bound as they were. -/
theorem get_present [DecidableEq K] (pol : Policy K P)
    (s : fixed_sized_cache K V P) (key : K)
    (hmem : key ∈ keys s.cache_items_map) :
    ∃ v, lookup s.cache_items_map key = some v ∧
      Get pol s key =
        (.ok v,
          { cache_items_map := s.cache_items_map
            cache_policy := pol.Touch key s.cache_policy
            max_cache_size := s.max_cache_size
            policy_calls := s.policy_calls ++ [PolicyCall.Touch key] }) ∧
      Size (Get pol s key).2 = Size s := by
  obtain ⟨v, hv⟩ := lookup_of_mem hmem
  refine ⟨v, hv, Get_stored pol hv, ?_⟩
  rw [Get_stored pol hv]
  rfl

/-- C6 on the store `2 ↦ 20, 1 ↦ 10`: `Get(1)` returns 10. -/
theorem get_present_witness :
    (1 : Nat) ∈ keys [(2, 20), (1, 10)] ∧
    ∃ v, lookup [(2, 20), (1, 10)] 1 = some v ∧
      Get (fifo : Policy Nat (List Nat)) full2 1 =
        (.ok v,
          { cache_items_map := [(2, 20), (1, 10)], cache_policy := [1, 2],
            max_cache_size := 2, policy_calls := [] ++ [PolicyCall.Touch 1] }) ∧
      Size (Get (fifo : Policy Nat (List Nat)) full2 1).2 = 2 :=
  ⟨by decide,
   get_present (fifo : Policy Nat (List Nat)) full2 1 (by decide)⟩

/-- C7: `Remove` on an absent key is a no-op. For every state and every key
that is not stored, `Remove(key)` returns `false` and the state after the call
is the state before it: no call on the policy, same `Size()`, same entries. -/
theorem remove_absent_noop [DecidableEq K] (pol : Policy K P)
    (s : fixed_sized_cache K V P) (key : K)
    (habs : key ∉ keys s.cache_items_map) :
    Remove pol s key = (.ok false, s) :=
  Remove_absent pol (map_find_eq_none.mpr habs)

/-- C7 on the store `2 ↦ 20, 1 ↦ 10`: `Remove(7)`. -/
theorem remove_absent_noop_witness :
    (7 : Nat) ∉ keys [(2, 20), (1, 10)] ∧
    Remove (fifo : Policy Nat (List Nat)) full2 7 =
      (.ok false, full2) :=
  ⟨by decide,
   remove_absent_noop (fifo : Policy Nat (List Nat)) full2 7 (by decide)⟩

/-- C8: `Remove` on a present key. For every state and every stored key,
`Remove(key)` returns `true`, makes exactly one call on the policy,
`Erase(key)`, removes the entry `find(key)` points at, so that `Size()`
decreases by exactly one, and leaves the value of every other key and the
bound unchanged. -/
theorem remove_present [DecidableEq K] (pol : Policy K P)
    (s : fixed_sized_cache K V P) (key : K)
    (hmem : key ∈ keys s.cache_items_map) :
    ∃ s1 i, Remove pol s key = (.ok true, s1) ∧
      s1.policy_calls = s.policy_calls ++ [PolicyCall.Erase key] ∧
      s1.cache_policy = pol.Erase key s.cache_policy ∧
      map_find s.cache_items_map key = some i ∧
      s1.cache_items_map = s.cache_items_map.eraseIdx i ∧
      Size s1 + 1 = Size s ∧
      (∀ k2, k2 ≠ key → lookup s1.cache_items_map k2 = lookup s.cache_items_map k2) ∧
      s1.max_cache_size = s.max_cache_size := by
  obtain ⟨i, hf⟩ := map_find_of_mem hmem
  have hi := map_find_lt hf
  refine ⟨_, i, Remove_stored pol hf, rfl, rfl, hf, rfl, ?_, ?_, rfl⟩
  · simp only [Size, List.length_eraseIdx_of_lt hi]
    omega
  · intro k2 hne
    exact lookup_eraseIdx_other hf hne

/-- C8 on the store `2 ↦ 20, 1 ↦ 10`: `Remove(1)`. -/
theorem remove_present_witness :
    (1 : Nat) ∈ keys [(2, 20), (1, 10)] ∧
    ∃ s1 i, Remove (fifo : Policy Nat (List Nat)) full2 1 = (.ok true, s1) ∧
      s1.policy_calls = [] ++ [PolicyCall.Erase 1] ∧
      s1.cache_policy = [2] ∧
      map_find [(2, 20), (1, 10)] 1 = some i ∧
      s1.cache_items_map = [(2, 20), (1, 10)].eraseIdx i ∧
      Size s1 + 1 = 2 ∧
      (∀ k2, k2 ≠ 1 → lookup s1.cache_items_map k2 = lookup [(2, 20), (1, 10)] k2) ∧
      s1.max_cache_size = 2 :=
  ⟨by decide,
   remove_present (fifo : Policy Nat (List Nat)) full2 1 (by decide)⟩

/-- C10: `Clear` empties the cache and reports every key once. For every
state whose store has unique keys: after `Clear()` the size is 0 and no key is
cached; the calls `Clear()` makes on the policy are one `Erase(k)` per entry,
in iteration order, and nothing else, so that every stored key is reported
exactly once and no other key is reported; and all of them are made on the
intact store, which is emptied afterwards. -/
theorem clear_reports_every_key_once [DecidableEq K] (pol : Policy K P)
    (s : fixed_sized_cache K V P) (hkeys : unique_keys s) :
    Size (Clear pol s) = 0 ∧
    (∀ k, Cached (Clear pol s) k = false) ∧
    (Clear pol s).policy_calls =
      s.policy_calls ++ (keys s.cache_items_map).map PolicyCall.Erase ∧
    (∀ k, ((keys s.cache_items_map).map PolicyCall.Erase).count (PolicyCall.Erase k) =
      if k ∈ keys s.cache_items_map then 1 else 0) ∧
    (∀ call ∈ (keys s.cache_items_map).map PolicyCall.Erase,
      ∃ k ∈ keys s.cache_items_map, call = PolicyCall.Erase k) ∧
    (Clear pol s).cache_policy =
      (keys s.cache_items_map).foldl (fun p k => pol.Erase k p) s.cache_policy ∧
    (Clear_notify pol s).cache_items_map = s.cache_items_map ∧
    (Clear_notify pol s).policy_calls = (Clear pol s).policy_calls ∧
    Clear pol s =
      { cache_items_map := []
        cache_policy := (Clear_notify pol s).cache_policy
        max_cache_size := s.max_cache_size
        policy_calls := (Clear_notify pol s).policy_calls } := by
  have hinj : Function.Injective (PolicyCall.Erase : K → PolicyCall K) := by
    intro a b h
    injection h
  refine ⟨by simp [Clear, Size], fun k => by simp [Clear, Cached, FindElem, map_find],
    by simp [Clear, Clear_notify_spec], ?_, ?_, by simp [Clear, Clear_notify_spec],
    by simp [Clear_notify_spec], by simp [Clear], by simp [Clear, Clear_notify_spec]⟩
  · intro k
    rw [List.count_map_of_injective _ _ hinj]
    by_cases hk : k ∈ keys s.cache_items_map
    · rw [if_pos hk]
      exact List.count_eq_one_of_mem hkeys hk
    · rw [if_neg hk]
      exact List.count_eq_zero_of_not_mem hk
  · intro call hcall
    obtain ⟨k, hk, rfl⟩ := List.mem_map.mp hcall
    exact ⟨k, hk, rfl⟩

/-- C10 on the store `2 ↦ 20, 1 ↦ 10`: `Clear()` reports 2, then 1. -/
theorem clear_reports_every_key_once_witness :
    unique_keys full2 ∧
    (Clear (fifo : Policy Nat (List Nat)) full2).policy_calls =
      [] ++ [PolicyCall.Erase 2, PolicyCall.Erase 1] :=
  ⟨by decide,
   (clear_reports_every_key_once (fifo : Policy Nat (List Nat)) full2 (by decide)).2.2.1⟩

/-- C12: unbounded mode. A cache constructed with capacity 0 stores the
largest `size_t` as its bound; with that bound the test
`size() + 1 > max_cache_size`, computed modulo `2 ^ 64`, is false in every
state; so every sequence of `Put` calls on the new cache returns normally, the
only calls it makes on the policy are `Insert` and `Touch` (no
`ReplCandidate`, no `Erase`), every key put is still in the store at the end,
and after putting pairwise distinct keys `Size()` is their number. -/
theorem unbounded_mode [DecidableEq K] (pol : Policy K P) :
    (ctor pol 0 : fixed_sized_cache K V P).max_cache_size = SIZE_MAX ∧
    (∀ s : fixed_sized_cache K V P, s.max_cache_size = SIZE_MAX → overflows s = false) ∧
    (∀ ops : List (K × V),
      (runPuts pol (ctor pol 0) ops).1 = .ok () ∧
      (∀ call ∈ (runPuts pol (ctor pol 0) ops).2.policy_calls,
        ∃ k, call = PolicyCall.Insert k ∨ call = PolicyCall.Touch k) ∧
      (∀ op ∈ ops, op.1 ∈ keys (runPuts pol (ctor pol 0) ops).2.cache_items_map)) ∧
    (∀ ops : List (K × V), (ops.map Prod.fst).Nodup →
      Size (runPuts pol (ctor pol 0) ops).2 = ops.length) := by
  have h0 : (ctor pol 0 : fixed_sized_cache K V P).max_cache_size = SIZE_MAX := by
    simp [ctor]
  refine ⟨h0, fun s hs => overflows_unbounded hs, ?_, ?_⟩
  · intro ops
    obtain ⟨s1, hr, _, hcalls, hkeys, _⟩ := runPuts_unbounded pol ops (ctor pol 0) h0
    rw [hr]
    refine ⟨rfl, ?_, ?_⟩
    · intro call hc
      rcases hcalls call hc with h | h
      · simp [ctor] at h
      · exact h
    · intro op hop
      exact (hkeys op.1).mpr (Or.inr (List.mem_map_of_mem Prod.fst hop))
  · intro ops hnd
    obtain ⟨s1, hr, _, _, _, hsize⟩ := runPuts_unbounded pol ops (ctor pol 0) h0
    rw [hr, hsize hnd (by simp [ctor, keys])]
    simp [ctor, Size]

/-- C12 with the first-in-first-out policy: three distinct keys put into a
cache of capacity 0 give size 3. -/
theorem unbounded_mode_witness :
    ([(1, 10), (2, 20), (3, 30)].map Prod.fst : List Nat).Nodup ∧
    Size (runPuts (fifo : Policy Nat (List Nat)) (ctor fifo 0)
      [(1, 10), (2, 20), (3, 30)]).2 = [(1, 10), (2, 20), (3, 30)].length :=
  ⟨by decide,
   (unbounded_mode (fifo : Policy Nat (List Nat))).2.2.2 [(1, 10), (2, 20), (3, 30)]
     (by decide)⟩

/-- C13: `Cached` is a pure membership test. For every state and key,
`Cached(key)` is true exactly when `key` is a key of the store; its result
depends on the store only; and the state after the call is the state before
it: same store, same policy state, no call on the policy. -/
theorem cached_pure_membership [DecidableEq K] (pol : Policy K P)
    (s : fixed_sized_cache K V P) (key : K) :
    (Cached s key = true ↔ key ∈ keys s.cache_items_map) ∧
    (∀ s2 : fixed_sized_cache K V P,
      s2.cache_items_map = s.cache_items_map → Cached s2 key = Cached s key) ∧
    after pol (Call.Cached key) s = s ∧
    (after pol (Call.Cached key) s).policy_calls = s.policy_calls := by
  refine ⟨?_, ?_, rfl, rfl⟩
  · simp only [Cached, FindElem]
    exact map_find_isSome
  · intro s2 h
    simp only [Cached, FindElem, h]

/-- C13 on the store `2 ↦ 20, 1 ↦ 10`: key 1 is cached, key 7 is not. -/
theorem cached_pure_membership_witness :
    Cached full2 1 = true ∧ Cached full2 7 = false ∧
    after (fifo : Policy Nat (List Nat)) (Call.Cached 1) full2 = full2 :=
  ⟨(cached_pure_membership (fifo : Policy Nat (List Nat)) full2 1).1.mpr (by decide),
   by decide, rfl⟩

/-- C14: insertion below the bound. For every state with
`Size() + 1 ≤ max_cache_size` and every call `Put(key, value)` whose arguments
read as a key that is not stored and a value (objects of the caller or
references into the store), `Put` returns normally and evicts nothing: the
only call on the policy is `Insert(key)`, the entry `(key, value)` is added to
the store, `Size()` grows by exactly one, `key` maps to `value`, and every
entry stored before is still there with its value. -/
theorem insertion_below_bound [DecidableEq K] (pol : Policy K P)
    (s : fixed_sized_cache K V P) (kr : ArgRef K V K) (vr : ArgRef K V V)
    (key : K) (value : V)
    (hk : kr.read s.cache_items_map = .ok key)
    (hv : vr.read s.cache_items_map = .ok value)
    (hsize : Size s + 1 ≤ s.max_cache_size)
    (hnew : key ∉ keys s.cache_items_map) :
    ∃ s1, Put pol s kr vr = (.ok (), s1) ∧
      s1.policy_calls = s.policy_calls ++ [PolicyCall.Insert key] ∧
      s1.cache_policy = pol.Insert key s.cache_policy ∧
      s1.cache_items_map = (key, value) :: s.cache_items_map ∧
      Size s1 = Size s + 1 ∧
      lookup s1.cache_items_map key = some value ∧
      (∀ k2 v2, lookup s.cache_items_map k2 = some v2 →
        lookup s1.cache_items_map k2 = some v2) ∧
      s1.max_cache_size = s.max_cache_size := by
  have hf := map_find_eq_none.mpr hnew
  have ho : overflows s = false := by
    simp only [overflows, decide_eq_false_iff_not, not_lt]
    have := Nat.mod_le (s.cache_items_map.length + 1) (2 ^ 64)
    simp only [Size] at hsize
    omega
  refine ⟨_, Put_insert pol hk hv hf ho, rfl, rfl, rfl, by simp [Size], by simp [lookup_cons],
    ?_, rfl⟩
  intro k2 v2 h2
  have hne : ¬ key = k2 := by
    rintro rfl
    rw [lookup_eq_none.mpr hnew] at h2
    exact absurd h2 (by simp)
  simp only [lookup_cons, hne, if_false, h2]

/-- C14 on the store `2 ↦ 20, 1 ↦ 10` with bound 3: `Put(3, Get(1))`, the
value being a reference to the value of entry 1. -/
theorem insertion_below_bound_witness :
    (ArgRef.entry 1 Prod.snd : ArgRef Nat Nat Nat).read below3.cache_items_map = .ok 10 ∧
    Size below3 + 1 ≤ below3.max_cache_size ∧ 3 ∉ keys below3.cache_items_map ∧
    ∃ s1, Put (fifo : Policy Nat (List Nat)) below3 (ArgRef.object 3)
        (ArgRef.entry 1 Prod.snd) = (.ok (), s1) ∧
      s1.policy_calls = below3.policy_calls ++ [PolicyCall.Insert 3] ∧
      s1.cache_policy = fifo.Insert 3 below3.cache_policy ∧
      s1.cache_items_map = (3, 10) :: below3.cache_items_map ∧
      Size s1 = Size below3 + 1 ∧
      lookup s1.cache_items_map 3 = some 10 ∧
      (∀ k2 v2, lookup below3.cache_items_map k2 = some v2 →
        lookup s1.cache_items_map k2 = some v2) ∧
      s1.max_cache_size = below3.max_cache_size :=
  ⟨rfl, by decide, by decide,
   insertion_below_bound (fifo : Policy Nat (List Nat)) below3 (ArgRef.object 3)
     (ArgRef.entry 1 Prod.snd) 3 10 rfl rfl (by decide) (by decide)⟩

/-- C15: overflow scenario from empty. On a new cache of capacity 2, for
pairwise distinct keys `A`, `B`, `C`, when the candidate the policy names at
the third `Put` is one of the stored keys `A`, `B`: the sequence `Put(A, 1)`,
`Put(B, 2)`, `Put(C, 3)` returns normally, `Size()` is 2, `C` is cached
with value 3, the key named by `ReplCandidate()` is the one key evicted and
the other of `A`, `B` keeps its value. The first-in-first-out policy names
`A`: `A` is evicted and `B` remains with value 2. -/
theorem overflow_scenario [DecidableEq K] [Inhabited K] (A B C : K)
    (hAB : A ≠ B) (hAC : A ≠ C) (hBC : B ≠ C) :
    (∀ pol : Policy K P,
      ((pol.ReplCandidate (pol.Insert B (pol.Insert A pol.init))).1 = A ∨
        (pol.ReplCandidate (pol.Insert B (pol.Insert A pol.init))).1 = B) →
      ∃ s3 : fixed_sized_cache K Nat P,
        runPuts pol (ctor pol 2) [(A, 1), (B, 2), (C, 3)] = (.ok (), s3) ∧
        Size s3 = 2 ∧ Cached s3 C = true ∧ lookup s3.cache_items_map C = some 3 ∧
        s3.policy_calls =
          [PolicyCall.Insert A, PolicyCall.Insert B, PolicyCall.ReplCandidate,
           PolicyCall.Erase (pol.ReplCandidate (pol.Insert B (pol.Insert A pol.init))).1,
           PolicyCall.Insert C] ∧
        Cached s3 (pol.ReplCandidate (pol.Insert B (pol.Insert A pol.init))).1 = false ∧
        ((pol.ReplCandidate (pol.Insert B (pol.Insert A pol.init))).1 = A →
          Cached s3 A = false ∧ Cached s3 B = true ∧
            lookup s3.cache_items_map B = some 2) ∧
        ((pol.ReplCandidate (pol.Insert B (pol.Insert A pol.init))).1 = B →
          Cached s3 B = false ∧ Cached s3 A = true ∧
            lookup s3.cache_items_map A = some 1)) ∧
    (∃ s3 : fixed_sized_cache K Nat (List K),
      runPuts fifo (ctor fifo 2) [(A, 1), (B, 2), (C, 3)] = (.ok (), s3) ∧
      Size s3 = 2 ∧ Cached s3 C = true ∧
      Cached s3 A = false ∧ Cached s3 B = true ∧
      lookup s3.cache_items_map B = some 2) := by
  have main : ∀ {Q : Type} (pol : Policy K Q),
      ((pol.ReplCandidate (pol.Insert B (pol.Insert A pol.init))).1 = A ∨
        (pol.ReplCandidate (pol.Insert B (pol.Insert A pol.init))).1 = B) →
      ∃ s3 : fixed_sized_cache K Nat Q,
        runPuts pol (ctor pol 2) [(A, 1), (B, 2), (C, 3)] = (.ok (), s3) ∧
        Size s3 = 2 ∧ Cached s3 C = true ∧ lookup s3.cache_items_map C = some 3 ∧
        s3.policy_calls =
          [PolicyCall.Insert A, PolicyCall.Insert B, PolicyCall.ReplCandidate,
           PolicyCall.Erase (pol.ReplCandidate (pol.Insert B (pol.Insert A pol.init))).1,
           PolicyCall.Insert C] ∧
        Cached s3 (pol.ReplCandidate (pol.Insert B (pol.Insert A pol.init))).1 = false ∧
        ((pol.ReplCandidate (pol.Insert B (pol.Insert A pol.init))).1 = A →
          Cached s3 A = false ∧ Cached s3 B = true ∧
            lookup s3.cache_items_map B = some 2) ∧
        ((pol.ReplCandidate (pol.Insert B (pol.Insert A pol.init))).1 = B →
          Cached s3 B = false ∧ Cached s3 A = true ∧
            lookup s3.cache_items_map A = some 1) := by
    intro Q pol hcand
    have h1 : Put pol (ctor pol 2 : fixed_sized_cache K Nat Q)
        (ArgRef.object A) (ArgRef.object 1) =
        (.ok (), { cache_items_map := [(A, 1)]
                   cache_policy := pol.Insert A pol.init
                   max_cache_size := 2
                   policy_calls := [PolicyCall.Insert A] }) := by
      have hp := @Put_insert K Nat Q _ pol (ctor pol 2) (ArgRef.object A) (ArgRef.object 1)
        A 1 rfl rfl (by simp [ctor, map_find]) (by simp [ctor, overflows])
      simpa [ctor] using hp
    have h2 : Put pol ({ cache_items_map := [(A, 1)]
                         cache_policy := pol.Insert A pol.init
                         max_cache_size := 2
                         policy_calls := [PolicyCall.Insert A] } :
          fixed_sized_cache K Nat Q) (ArgRef.object B) (ArgRef.object 2) =
        (.ok (), { cache_items_map := [(B, 2), (A, 1)]
                   cache_policy := pol.Insert B (pol.Insert A pol.init)
                   max_cache_size := 2
                   policy_calls := [PolicyCall.Insert A, PolicyCall.Insert B] }) := by
      have hp := @Put_insert K Nat Q _ pol
        { cache_items_map := [(A, 1)]
          cache_policy := pol.Insert A pol.init
          max_cache_size := 2
          policy_calls := [PolicyCall.Insert A] } (ArgRef.object B) (ArgRef.object 2)
        B 2 rfl rfl (by simp [map_find, hAB]) (by simp [overflows])
      simpa using hp
    have hfC : map_find [(B, (2 : Nat)), (A, 1)] C = none := by
      simp [map_find, hAC, hBC]
    have hBA : ¬ B = A := fun h => hAB h.symm
    have hCA : ¬ C = A := fun h => hAC h.symm
    have hCB : ¬ C = B := fun h => hBC h.symm
    rcases hcand with hc | hc
    · have hfc : map_find [(B, (2 : Nat)), (A, 1)]
          (pol.ReplCandidate (pol.Insert B (pol.Insert A pol.init))).1 = some 1 := by
        rw [hc]; simp [map_find, hBA]
      have h3 := @Put_evict K Nat Q _ pol
        { cache_items_map := [(B, 2), (A, 1)]
          cache_policy := pol.Insert B (pol.Insert A pol.init)
          max_cache_size := 2
          policy_calls := [PolicyCall.Insert A, PolicyCall.Insert B] }
        (ArgRef.object C) (ArgRef.object 3) C 3 1 rfl hfC (by simp [overflows]) hfc rfl rfl
      refine ⟨_, by simp only [runPuts, h1, h2, h3]; rfl, ?_⟩
      simp [Size, Cached, FindElem, map_find, lookup_cons, hc, hAB, hBA, hCA, hCB, hAC, hBC]
    · have hfc : map_find [(B, (2 : Nat)), (A, 1)]
          (pol.ReplCandidate (pol.Insert B (pol.Insert A pol.init))).1 = some 0 := by
        rw [hc]; simp [map_find]
      have h3 := @Put_evict K Nat Q _ pol
        { cache_items_map := [(B, 2), (A, 1)]
          cache_policy := pol.Insert B (pol.Insert A pol.init)
          max_cache_size := 2
          policy_calls := [PolicyCall.Insert A, PolicyCall.Insert B] }
        (ArgRef.object C) (ArgRef.object 3) C 3 0 rfl hfC (by simp [overflows]) hfc rfl rfl
      refine ⟨_, by simp only [runPuts, h1, h2, h3]; rfl, ?_⟩
      simp [Size, Cached, FindElem, map_find, lookup_cons, hc, hAB, hBA, hCA, hCB, hAC, hBC]
  refine ⟨fun pol h => main pol h, ?_⟩
  have hf : ((fifo : Policy K (List K)).ReplCandidate
      ((fifo : Policy K (List K)).Insert B
        ((fifo : Policy K (List K)).Insert A (fifo : Policy K (List K)).init))).1 = A := by
    simp [fifo]
  obtain ⟨s3, hr, hs, hC, _, _, _, hA, _⟩ := main (fifo : Policy K (List K)) (Or.inl hf)
  exact ⟨s3, hr, hs, hC, (hA hf).1, (hA hf).2.1, (hA hf).2.2⟩

/-- C15 for the keys 1, 2, 3 and the first-in-first-out policy. -/
theorem overflow_scenario_witness :
    (1 : Nat) ≠ 2 ∧ (1 : Nat) ≠ 3 ∧ (2 : Nat) ≠ 3 ∧
    ∃ s3 : fixed_sized_cache Nat Nat (List Nat),
      runPuts fifo (ctor fifo 2) [(1, 1), (2, 2), (3, 3)] = (.ok (), s3) ∧
      Size s3 = 2 ∧ Cached s3 3 = true ∧
      Cached s3 1 = false ∧ Cached s3 2 = true ∧
      lookup s3.cache_items_map 2 = some 2 :=
  ⟨by decide, by decide, by decide,
   (@overflow_scenario Nat (List Nat) _ _ 1 2 3 (by decide) (by decide) (by decide)).2⟩

/-- C17: unchecked eviction candidate. On a store whose size + 1 exceeds the
capacity (fewer than `SIZE_MAX` entries, so that `size() + 1` does not wrap
around) and for a `Put` whose key argument reads as a key that is not stored,
`Put` passes the key `c` named by `ReplCandidate()` to `Erase` whatever it
is: the calls on the policy begin with `ReplCandidate()`, `Erase(c)`, and no
other `Erase` follows. If `c` is stored and the arguments are not references
into its entry, `Insert(key)` follows and `Put` returns normally; if `c` is
not stored, the policy has still been told `Erase(c)` and the engine then
erases `end()`, with the store as it was: no membership test and no other
choice of key is made. -/
theorem unchecked_eviction_candidate [DecidableEq K] (pol : Policy K P)
    (s : fixed_sized_cache K V P) (kr : ArgRef K V K) (vr : ArgRef K V V) (key : K)
    (hk : kr.read s.cache_items_map = .ok key)
    (hsize : Size s + 1 > s.max_cache_size) (hfit : Size s < SIZE_MAX)
    (hnew : key ∉ keys s.cache_items_map) :
    (∃ rest, (Put pol s kr vr).2.policy_calls =
        s.policy_calls ++
          [PolicyCall.ReplCandidate,
           PolicyCall.Erase (pol.ReplCandidate s.cache_policy).1] ++ rest ∧
        ∀ k, PolicyCall.Erase k ∉ rest) ∧
    ((pol.ReplCandidate s.cache_policy).1 ∈ keys s.cache_items_map →
      kr.outside (pol.ReplCandidate s.cache_policy).1 →
      vr.outside (pol.ReplCandidate s.cache_policy).1 →
      (∃ value, vr.read s.cache_items_map = .ok value) →
      (Put pol s kr vr).1 = .ok () ∧
      (Put pol s kr vr).2.policy_calls =
        s.policy_calls ++
          [PolicyCall.ReplCandidate,
           PolicyCall.Erase (pol.ReplCandidate s.cache_policy).1,
           PolicyCall.Insert key]) ∧
    ((pol.ReplCandidate s.cache_policy).1 ∉ keys s.cache_items_map →
      Put pol s kr vr =
        (.error .invalid_iterator,
          { cache_items_map := s.cache_items_map
            cache_policy := pol.Erase (pol.ReplCandidate s.cache_policy).1
              (pol.ReplCandidate s.cache_policy).2
            max_cache_size := s.max_cache_size
            policy_calls := s.policy_calls ++
              [PolicyCall.ReplCandidate,
               PolicyCall.Erase (pol.ReplCandidate s.cache_policy).1] })) := by
  have hf := map_find_eq_none.mpr hnew
  have ho := overflows_of_lt hsize hfit
  refine ⟨?_, ?_, ?_⟩
  · obtain ⟨_, rest, hcalls, hrest⟩ := Put_evict_calls pol vr hk hf ho
    refine ⟨rest, hcalls, ?_⟩
    rcases hrest with rfl | ⟨k, rfl⟩ <;> simp
  · intro hmem hko hvo hval
    obtain ⟨value, hv⟩ := hval
    obtain ⟨j, hc⟩ := map_find_of_mem hmem
    have hk2 := (ArgRef.read_eraseIdx hc hko).trans hk
    have hv2 := (ArgRef.read_eraseIdx hc hvo).trans hv
    rw [Put_evict pol hk hf ho hc hk2 hv2]
    exact ⟨rfl, rfl⟩
  · intro habs
    exact Put_evict_absent pol vr hk hf ho (map_find_eq_none.mpr habs)

/-- C17 on the full store `2 ↦ 20, 1 ↦ 10` of capacity 2 with a policy state
whose oldest key, 9, is not in the store: `Put(3, 30)` tells the policy
`Erase(9)` and fails on the erasure, the store untouched. -/
theorem unchecked_eviction_candidate_witness :
    (fifo.ReplCandidate [9, 1, 2]).1 ∉ keys [(2, 20), (1, 10)] ∧
    Put (fifo : Policy Nat (List Nat))
        { cache_items_map := [(2, 20), (1, 10)], cache_policy := [9, 1, 2],
          max_cache_size := 2, policy_calls := [] } (ArgRef.object 3) (ArgRef.object 30) =
      (.error .invalid_iterator,
        { cache_items_map := [(2, 20), (1, 10)], cache_policy := [1, 2],
          max_cache_size := 2,
          policy_calls := [] ++ [PolicyCall.ReplCandidate, PolicyCall.Erase 9] }) :=
  ⟨by decide,
   (unchecked_eviction_candidate (fifo : Policy Nat (List Nat))
      { cache_items_map := [(2, 20), (1, 10)], cache_policy := [9, 1, 2],
        max_cache_size := 2, policy_calls := [] } (ArgRef.object 3) (ArgRef.object 30) 3
      rfl (by decide) (by decide) (by decide)).2.2 (by decide)⟩

/-- C18: `Erase` never hits a missing entry under the policy precondition.
In the embedding the internal `Erase(key)` fails (erasure of `end()`) exactly
when `key` is not stored. `Remove` never fails, for any state and key: its
`Erase` call is guarded by the membership test. `Put` never fails on an
erasure, for any state and any arguments, when the eviction candidate (if one
is asked for) is a stored key; with usable arguments it returns normally. -/
theorem erase_never_hits_missing_entry [DecidableEq K] (pol : Policy K P)
    (s : fixed_sized_cache K V P) (key : K) :
    ((Erase pol s key).1 = .error .invalid_iterator ↔ key ∉ keys s.cache_items_map) ∧
    ((Erase pol s key).1 = .ok () ↔ key ∈ keys s.cache_items_map) ∧
    (∃ b, (Remove pol s key).1 = .ok b) ∧
    (∀ (kr : ArgRef K V K) (vr : ArgRef K V V) (value : V),
      args_valid pol s kr vr key value → candidate_stored pol s key →
      (Put pol s kr vr).1 = .ok ()) ∧
    (∀ (kr : ArgRef K V K) (vr : ArgRef K V V),
      kr.read s.cache_items_map = .ok key → candidate_stored pol s key →
      (Put pol s kr vr).1 ≠ .error .invalid_iterator) := by
  refine ⟨?_, ?_, ?_, ?_, ?_⟩
  · cases hf : map_find s.cache_items_map key with
    | none =>
      rw [Erase_absent pol hf]
      simp [map_find_eq_none.mp hf]
    | some i =>
      have hmem : key ∈ keys s.cache_items_map := by
        by_contra hn
        rw [map_find_eq_none.mpr hn] at hf
        exact absurd hf (by simp)
      rw [Erase_stored pol hf]
      simp [hmem]
  · cases hf : map_find s.cache_items_map key with
    | none =>
      rw [Erase_absent pol hf]
      simp [map_find_eq_none.mp hf]
    | some i =>
      have hmem : key ∈ keys s.cache_items_map := by
        by_contra hn
        rw [map_find_eq_none.mpr hn] at hf
        exact absurd hf (by simp)
      rw [Erase_stored pol hf]
      simp [hmem]
  · obtain ⟨b, s1, hr, _⟩ := Remove_size pol s key
    exact ⟨b, by rw [hr]⟩
  · intro kr vr value ha h
    obtain ⟨s1, hp, _⟩ := Put_size pol s kr vr key value ha h
    rw [hp]
  · intro kr vr hk h
    apply Put_not_invalid_iterator
    intro key2 hk2
    rw [hk] at hk2
    injection hk2 with hk2
    exact hk2 ▸ h

/-- C18 on the full store `2 ↦ 20, 1 ↦ 10` of capacity 2 with the
first-in-first-out policy tracking `1, 2`: `Put(3, 30)` does not fail. -/
theorem erase_never_hits_missing_entry_witness :
    args_valid (fifo : Policy Nat (List Nat)) full2 (ArgRef.object 3) (ArgRef.object 30)
      3 30 ∧
    candidate_stored (fifo : Policy Nat (List Nat)) full2 3 ∧
    (Put (fifo : Policy Nat (List Nat)) full2 (ArgRef.object 3) (ArgRef.object 30)).1 =
      .ok () :=
  ⟨args_valid_object fifo full2 3 30, by decide,
   (erase_never_hits_missing_entry (fifo : Policy Nat (List Nat)) full2 3).2.2.2.1
     (ArgRef.object 3) (ArgRef.object 30) 30 (args_valid_object fifo full2 3 30)
     (by decide)⟩

/-- C19: eviction is only requested from a non-empty store. For every
constructor argument the stored bound is at least 1: 0 is replaced by the
largest `size_t`, any other value is kept; no sequence of calls changes the
bound. In every state whose bound is at least 1 and for every `Put`, whatever
its arguments refer to, if `ReplCandidate()` is among the calls the `Put`
makes on the policy, then the store holds at least `max_cache_size` entries,
hence at least one. -/
theorem eviction_only_from_nonempty_store [DecidableEq K] (pol : Policy K P) :
    (∀ max_size : Nat,
      1 ≤ (ctor pol max_size : fixed_sized_cache K V P).max_cache_size ∧
      (max_size = 0 →
        (ctor pol max_size : fixed_sized_cache K V P).max_cache_size = SIZE_MAX) ∧
      (max_size ≠ 0 →
        (ctor pol max_size : fixed_sized_cache K V P).max_cache_size = max_size)) ∧
    (∀ (max_size : Nat) (calls : List (Call K V)),
      1 ≤ (run pol (ctor pol max_size : fixed_sized_cache K V P) calls).max_cache_size) ∧
    (∀ (s : fixed_sized_cache K V P) (kr : ArgRef K V K) (vr : ArgRef K V V)
      (made : List (PolicyCall K)),
      1 ≤ s.max_cache_size →
      (Put pol s kr vr).2.policy_calls = s.policy_calls ++ made →
      PolicyCall.ReplCandidate ∈ made →
      s.max_cache_size ≤ Size s ∧ 1 ≤ Size s ∧ s.cache_items_map ≠ []) := by
  refine ⟨fun max_size => ctor_max_cache_size pol max_size, ?_, ?_⟩
  · intro max_size calls
    rw [run_max_cache_size]
    exact (ctor_max_cache_size pol max_size).1
  · intro s kr vr made hmax hmade hrc
    rcases (Put_policy_calls pol s kr vr).2 with ⟨made2, h, hno⟩ | ⟨ho, _⟩
    · rw [h] at hmade
      have := List.append_cancel_left hmade
      rw [← this] at hrc
      exact absurd hrc hno
    · have h1 := overflows_bound ho
      have h2 := overflows_nonempty hmax ho
      refine ⟨h1, h2, ?_⟩
      intro hnil
      simp [Size, hnil] at h2

/-- C19 on the full store `2 ↦ 20, 1 ↦ 10` of capacity 2: `Put(3, 30)` asks
for a candidate, and the store holds two entries. -/
theorem eviction_only_from_nonempty_store_witness :
    1 ≤ full2.max_cache_size ∧
    (Put (fifo : Policy Nat (List Nat)) full2 (ArgRef.object 3)
      (ArgRef.object 30)).2.policy_calls =
      full2.policy_calls ++
        [PolicyCall.ReplCandidate, PolicyCall.Erase 1, PolicyCall.Insert 3] ∧
    PolicyCall.ReplCandidate ∈
      [PolicyCall.ReplCandidate, PolicyCall.Erase 1, PolicyCall.Insert (3 : Nat)] ∧
    full2.max_cache_size ≤ Size full2 ∧ 1 ≤ Size full2 ∧ full2.cache_items_map ≠ [] :=
  ⟨by decide, by decide, by decide,
   (eviction_only_from_nonempty_store (fifo : Policy Nat (List Nat))).2.2 full2
     (ArgRef.object 3) (ArgRef.object 30)
     [PolicyCall.ReplCandidate, PolicyCall.Erase 1, PolicyCall.Insert 3]
     (by decide) (by decide) (by decide)⟩

/-- Last write wins for arguments that are objects of the caller: for every
state, key and values `v1`, `v2`, when the eviction candidate (if one is
asked for) is a stored key, `Put(key, v1)`, `Put(key, v2)` after it and
`Put(key, v2)` alone all return normally, and the store after
`Put(key, v1); Put(key, v2)` is the store after `Put(key, v2)` alone. -/
theorem last_write_wins_objects [DecidableEq K] (pol : Policy K P)
    (s : fixed_sized_cache K V P) (key : K) (v1 v2 : V)
    (h : candidate_stored pol s key) :
    (Put pol s (ArgRef.object key) (ArgRef.object v1)).1 = .ok () ∧
    (Put pol (Put pol s (ArgRef.object key) (ArgRef.object v1)).2
      (ArgRef.object key) (ArgRef.object v2)).1 = .ok () ∧
    (Put pol s (ArgRef.object key) (ArgRef.object v2)).1 = .ok () ∧
    (Put pol (Put pol s (ArgRef.object key) (ArgRef.object v1)).2
      (ArgRef.object key) (ArgRef.object v2)).2.cache_items_map =
      (Put pol s (ArgRef.object key) (ArgRef.object v2)).2.cache_items_map := by
  have hr1 : (ArgRef.object key : ArgRef K V K).read s.cache_items_map = .ok key := rfl
  have hv1 : (ArgRef.object v1 : ArgRef K V V).read s.cache_items_map = .ok v1 := rfl
  have hv2 : (ArgRef.object v2 : ArgRef K V V).read s.cache_items_map = .ok v2 := rfl
  cases hf : map_find s.cache_items_map key with
  | some i =>
    obtain ⟨e, he, hk⟩ := map_find_key hf
    have hks := keys_set he v1
    rw [hk] at hks
    have hf1 : map_find (s.cache_items_map.set i (key, v1)) key = some i := by
      rw [map_find_congr hks, hf]
    have hp2 := @Put_update K V P _ pol
      { cache_items_map := s.cache_items_map.set i (key, v1)
        cache_policy := pol.Touch key s.cache_policy
        max_cache_size := s.max_cache_size
        policy_calls := s.policy_calls ++ [PolicyCall.Touch key] }
      (ArgRef.object key) (ArgRef.object v2) key v2 i rfl rfl hf1
    rw [Put_update pol hr1 hv1 hf, Put_update pol hr1 hv2 hf]
    simp only
    rw [hp2]
    simp [List.set_set]
  | none =>
    cases ho : overflows s with
    | false =>
      have hp2 := @Put_update K V P _ pol
        { cache_items_map := (key, v1) :: s.cache_items_map
          cache_policy := pol.Insert key s.cache_policy
          max_cache_size := s.max_cache_size
          policy_calls := s.policy_calls ++ [PolicyCall.Insert key] }
        (ArgRef.object key) (ArgRef.object v2) key v2 0 rfl rfl (by simp [map_find])
      rw [Put_insert pol hr1 hv1 hf ho, Put_insert pol hr1 hv2 hf ho]
      simp only
      rw [hp2]
      simp
    | true =>
      obtain ⟨j, hc⟩ := map_find_of_mem (h hf ho)
      have hp2 := @Put_update K V P _ pol
        { cache_items_map := (key, v1) :: s.cache_items_map.eraseIdx j
          cache_policy := pol.Insert key
            (pol.Erase (pol.ReplCandidate s.cache_policy).1
              (pol.ReplCandidate s.cache_policy).2)
          max_cache_size := s.max_cache_size
          policy_calls := s.policy_calls ++
            [PolicyCall.ReplCandidate,
             PolicyCall.Erase (pol.ReplCandidate s.cache_policy).1,
             PolicyCall.Insert key] }
        (ArgRef.object key) (ArgRef.object v2) key v2 0 rfl rfl (by simp [map_find])
      have he1 := @Put_evict K V P _ pol s (ArgRef.object key) (ArgRef.object v1) key v1 j
        rfl hf ho hc rfl rfl
      have he2 := @Put_evict K V P _ pol s (ArgRef.object key) (ArgRef.object v2) key v2 j
        rfl hf ho hc rfl rfl
      rw [he1, he2]
      simp only
      rw [hp2]
      simp

end caches
